import Mathlib

/-!
# Well-clear conflict detection (DAIDALUS `WCV_tvar`)

A shallow embedding of `src/DAIDALUS/C++/src/WCV_tvar.cpp`, of the interval type
declared in `src/DAIDALUS/C++/include/LossData.h`, and of the methods `gs`, `vs`, `mkTrk`,
`mkTrkGsVs`, `mkGs`, `Hat`, `genVel` and `mkAddTrk` of `src/DAIDALUS/C++/src/Velocity.cpp`.

Conventions of the embedding.

* In the main embedding a C++ `double` is an exact rational number (`ℚ`): there is no rounding,
  no NaN and no infinity.  `DBL_MAX` is the rational value of the largest finite double.  It is
  used for the properties that do not depend on rounding: the control flow of `WCV_interval`,
  its case analysis, and the places of the divisions.
* The properties that depend on the rounding of doubles are stated on a second embedding,
  `Fl.*`, in which every operation returns the nearest double (section "Double arithmetic with
  rounding"), and those about NaN on a third one, `FP.*` (section "Doubles with NaN").
* `WCV_tvar` is an abstract class.  Its two pure virtual members, `horizontal_tvar` and
  `horizontal_WCV_interval`, are fields of the structure `WCV_tvar`.
* Functions of other classes that `WCV_tvar.cpp` calls and whose bodies are not part of the
  source tree (`Vect2::norm`, `Horizontal::dcpa`, `Util::almost_equals`,
  `WCV_Vertical::vertical_WCV`, `WCV_Vertical::vertical_WCV_interval`) are the fields of the
  structure `Externals`; every theorem holds for all values of these fields, under the
  hypotheses it states.
* The diagnostic text written by `print_PVS_input` and `print_PVS_output` is a list of
  `PVSLine` values returned next to the result.
-/

namespace larcfm

/-! ## Vectors -/

/-- Class `Vect2`: a pair of doubles. -/
structure Vect2 where
  x : ℚ
  y : ℚ
deriving DecidableEq, Repr

/-- Class `Vect3`: a triple of doubles. -/
structure Vect3 where
  x : ℚ
  y : ℚ
  z : ℚ
deriving DecidableEq, Repr

/-- Class `Velocity`, declared as `class Velocity : public Vect3`
(constructor `Velocity(vx,vy,vz) : Vect3(vx,vy,vz)` in `Velocity.cpp`). -/
structure Velocity extends Vect3
deriving DecidableEq, Repr

/-- Modelled from the spec: `Vect2::Sub` is not in the source tree; the spec names the operation
"subtraction" (section 4.1) and uses it as `s2 = so2 - si2` (section 4.5). -/
def Vect2.Sub (a b : Vect2) : Vect2 := ⟨a.x - b.x, a.y - b.y⟩

/-- Modelled from the spec: `Vect2::ScalAdd` is not in the source tree; `v.ScalAdd(k, s)` is the
linear extrapolation `s + v·k` of section 4.1, used as `step = s2 + v2·vt_in` in section 4.5. -/
def Vect2.ScalAdd (v : Vect2) (k : ℚ) (s : Vect2) : Vect2 := ⟨s.x + v.x * k, s.y + v.y * k⟩

/-- Modelled from the spec: `Vect3::vect2` is not in the source tree; it is the "2D projection of a
3D vector" of section 4.1. -/
def Vect3.vect2 (v : Vect3) : Vect2 := ⟨v.x, v.y⟩

/-- Negation of a 2D vector (used to state symmetry properties). -/
def Vect2.Neg (a : Vect2) : Vect2 := ⟨-a.x, -a.y⟩

/-! ## Interval type (`LossData.h`) -/

/-- Class `LossData`: the pair `(time_in, time_out)`. -/
structure LossData where
  time_in : ℚ
  time_out : ℚ
deriving DecidableEq, Repr

/-- Modelled from the spec: `LossData::conflict()` is declared in `LossData.h` and its body is not
in the source tree.  Section 4.5 of the spec: a conflict is `time_in < time_out`; the header
comment: "if time_in < time_out is true, then there is a conflict". -/
def LossData.conflict (ld : LossData) : Bool := decide (ld.time_in < ld.time_out)

/-- The object `WCV_Vertical wcvz`: `vertical_WCV_interval` stores its answer in the two members
`time_in` and `time_out`, which `WCV_interval` then reads. -/
structure WCV_Vertical where
  time_in : ℚ
  time_out : ℚ
deriving DecidableEq, Repr

/-- The constant `DBL_MAX` of `<cfloat>`: the largest finite double, `(2 - 2^(-52)) * 2^1023`. -/
def DBL_MAX : ℚ := 2 ^ 1024 - 2 ^ 971

/-! ## Collaborators -/

/-- The threshold table `WCVTable` as read through `getDTHR`, `getZTHR`, `getTTHR`, `getTCOA`. -/
structure WCVTable where
  DTHR : ℚ
  ZTHR : ℚ
  TTHR : ℚ
  TCOA : ℚ
deriving DecidableEq, Repr

/-- Functions called by `WCV_tvar.cpp` whose bodies are not in the source tree. -/
structure Externals where
  /-- The function `Vect2::norm`. -/
  norm : Vect2 → ℚ
  /-- The function `Horizontal::dcpa(s, v)`. -/
  dcpa : Vect2 → Vect2 → ℚ
  /-- The function `Util::almost_equals(a, b)`. -/
  almost_equals : ℚ → ℚ → Bool
  /-- The function `WCV_Vertical::vertical_WCV(ZTHR, TCOA, sz, vz)`. -/
  vertical_WCV : ℚ → ℚ → ℚ → ℚ → Bool
  /-- The function `WCV_Vertical::vertical_WCV_interval(ZTHR, TCOA, B, T, sz, vz)`. -/
  vertical_WCV_interval : ℚ → ℚ → ℚ → ℚ → ℚ → ℚ → WCV_Vertical

/-- Class `WCV_tvar`: the threshold table, the identifier, the static flag `pvsCheck`, and the two
pure virtual members supplied by a concrete detector. -/
structure WCV_tvar where
  table : WCVTable
  id : String
  pvsCheck : Bool
  /-- Pure virtual `horizontal_tvar(s, v)`. -/
  horizontal_tvar : Vect2 → Vect2 → ℚ
  /-- Pure virtual `horizontal_WCV_interval(T, s, v)`. -/
  horizontal_WCV_interval : ℚ → Vect2 → Vect2 → LossData

/-! ## Diagnostic output -/

/-- One line written by `fpln`; the numbers are kept as values (the formatting by `Fm8` is not
modelled). -/
inductive PVSLine where
  | thresholds (DTHR ZTHR TTHR TCOA B T : ℚ)
  | vect (x y z : ℚ) (tag : String)
  | timeInOut (time_in time_out : ℚ) (id comment : String)
deriving DecidableEq, Repr

/-- Method `WCV_tvar::print_PVS_input` (lines 165-175). -/
def WCV_tvar.print_PVS_input (w : WCV_tvar) (so : Vect3) (vo : Velocity) (si : Vect3)
    (vi : Velocity) (B T : ℚ) : List PVSLine :=
  if w.pvsCheck then
    [PVSLine.thresholds w.table.DTHR w.table.ZTHR w.table.TTHR w.table.TCOA B T,
     PVSLine.vect so.x so.y so.z "so",
     PVSLine.vect vo.x vo.y vo.z "vo",
     PVSLine.vect si.x si.y si.z "si",
     PVSLine.vect vi.x vi.y vi.z "vi"]
  else []

/-- Method `WCV_tvar::print_PVS_output` (lines 177-181). -/
def WCV_tvar.print_PVS_output (w : WCV_tvar) (time_in time_out : ℚ) (comment : String) :
    List PVSLine :=
  if w.pvsCheck then [PVSLine.timeInOut time_in time_out w.id comment] else []

/-! ## The detector -/

/-- Method `WCV_tvar::horizontal_WCV` (lines 88-95). -/
def WCV_tvar.horizontal_WCV (E : Externals) (w : WCV_tvar) (s v : Vect2) : Bool :=
  if E.norm s ≤ w.table.DTHR then true
  else if E.dcpa s v ≤ w.table.DTHR then
    let tvar := w.horizontal_tvar s v
    decide (0 ≤ tvar) && decide (tvar ≤ w.table.TTHR)
  else false

/-- Method `WCV_tvar::violation` (lines 97-106). -/
def WCV_tvar.violation (E : Externals) (w : WCV_tvar) (so : Vect3) (vo : Velocity) (si : Vect3)
    (vi : Velocity) : Bool :=
  let so2 := so.vect2
  let si2 := si.vect2
  let s2 := so2.Sub si2
  let vo2 := vo.vect2
  let vi2 := vi.vect2
  let v2 := vo2.Sub vi2
  w.horizontal_WCV E s2 v2 &&
    E.vertical_WCV w.table.ZTHR w.table.TCOA (so.z - si.z) (vo.z - vi.z)

/-- Method `WCV_tvar::WCV_interval` (lines 124-163) in exact arithmetic, returning the interval
together with the diagnostic lines written on the way.  `Fl.WCV_tvar.WCV_interval` is the
method with the rounding of its differences and sums. -/
def WCV_tvar.WCV_interval_io (E : Externals) (w : WCV_tvar) (so : Vect3) (vo : Velocity)
    (si : Vect3) (vi : Velocity) (B T : ℚ) : LossData × List PVSLine :=
  let T := if T ≤ B then DBL_MAX else T
  let time_in := T
  let time_out := B
  let out := w.print_PVS_input so vo si vi B T
  let so2 := so.vect2
  let si2 := si.vect2
  let s2 := so2.Sub si2
  let vo2 := vo.vect2
  let vi2 := vi.vect2
  let v2 := vo2.Sub vi2
  let sz := so.z - si.z
  let vz := vo.z - vi.z
  let wcvz := E.vertical_WCV_interval w.table.ZTHR w.table.TCOA B T sz vz
  if wcvz.time_in > wcvz.time_out then
    (LossData.mk time_in time_out, out ++ w.print_PVS_output time_in time_out "case 1")
  else
    let step := v2.ScalAdd wcvz.time_in s2
    if E.almost_equals wcvz.time_in wcvz.time_out then
      let out := out ++ w.print_PVS_output time_in time_out "case 2"
      if w.horizontal_WCV E step v2 then
        (LossData.mk wcvz.time_in wcvz.time_out, out)
      else
        (LossData.mk time_in time_out, out)
    else
      let ld := w.horizontal_WCV_interval (wcvz.time_out - wcvz.time_in) step v2
      let time_in := ld.time_in + wcvz.time_in
      let time_out := ld.time_out + wcvz.time_in
      (LossData.mk time_in time_out, out ++ w.print_PVS_output time_in time_out "case 3")

/-- The value returned by `WCV_tvar::WCV_interval`. -/
def WCV_tvar.WCV_interval (E : Externals) (w : WCV_tvar) (so : Vect3) (vo : Velocity)
    (si : Vect3) (vi : Velocity) (B T : ℚ) : LossData :=
  (w.WCV_interval_io E so vo si vi B T).1

/-- Method `WCV_tvar::WCV3D` (lines 120-122). -/
def WCV_tvar.WCV3D (E : Externals) (w : WCV_tvar) (so : Vect3) (vo : Velocity)
    (si : Vect3) (vi : Velocity) (B T : ℚ) : LossData :=
  w.WCV_interval E so vo si vi B T

/-- Method `WCV_tvar::conflict` (lines 108-110). -/
def WCV_tvar.conflict (E : Externals) (w : WCV_tvar) (so : Vect3) (vo : Velocity)
    (si : Vect3) (vi : Velocity) (B T : ℚ) : Bool :=
  (w.WCV3D E so vo si vi B T).conflict

/-! ## Names for the intermediate values of `WCV_interval` -/

/-- The upper bound in force after the first statement of `WCV_interval`
(`if (T <= B) T = DBL_MAX;`). -/
def horizon (B T : ℚ) : ℚ := if T ≤ B then DBL_MAX else T

/-- The relative horizontal position `s2 = so2 - si2`. -/
def rel_s2 (so si : Vect3) : Vect2 := so.vect2.Sub si.vect2

/-- The relative horizontal velocity `v2 = vo2 - vi2`. -/
def rel_v2 (vo vi : Velocity) : Vect2 := vo.vect2.Sub vi.vect2

/-- The vertical closure interval `wcvz` that `WCV_interval` computes. -/
def WCV_tvar.wcvz (E : Externals) (w : WCV_tvar) (so : Vect3) (vo : Velocity)
    (si : Vect3) (vi : Velocity) (B T : ℚ) : WCV_Vertical :=
  E.vertical_WCV_interval w.table.ZTHR w.table.TCOA B (horizon B T) (so.z - si.z) (vo.z - vi.z)

/-- The relative horizontal position advanced to the start of the vertical interval,
`step = v2.ScalAdd(wcvz.time_in, s2)`. -/
def WCV_tvar.step (E : Externals) (w : WCV_tvar) (so : Vect3) (vo : Velocity)
    (si : Vect3) (vi : Velocity) (B T : ℚ) : Vect2 :=
  (rel_v2 vo vi).ScalAdd (w.wcvz E so vo si vi B T).time_in (rel_s2 so si)

/-! ## A concrete detector

The definitions below give one value to every field of `Externals` and `WCV_tvar`.  They are used
to evaluate the detector on concrete encounters. -/

/-- Modelled from the spec: `Vect2::norm` is not in the source tree; the "Euclidean norm" of
section 4.1, with the square root taken by `Rat.sqrt` (exact on squares of rationals). -/
def Sample.norm (s : Vect2) : ℚ := Rat.sqrt (s.x * s.x + s.y * s.y)

/-- Time of closest point of approach of the relative trajectory `s + v·t`; `0` when the relative
velocity is zero. -/
def Sample.tcpa (s v : Vect2) : ℚ :=
  if v.x = 0 ∧ v.y = 0 then 0 else -(s.x * v.x + s.y * v.y) / (v.x * v.x + v.y * v.y)

/-- Modelled from the spec: `Horizontal::dcpa` is not in the source tree; section 4.3: the
separation at the closest point of approach, and `|s|` when `v` is zero. -/
def Sample.dcpa (s v : Vect2) : ℚ := Sample.norm (v.ScalAdd (Sample.tcpa s v) s)

/-- Modelled from the spec: `Util::almost_equals` is not in the source tree; the "tolerance-based
equality" of sections 4.5 and 7, here with a relative tolerance of `2^(-38)`. -/
def Sample.almost_equals (a b : ℚ) : Bool := decide (|a - b| * 2 ^ 38 ≤ max |a| |b|)

/-- Modelled from the spec: `WCV_Vertical::vertical_WCV` is not in the source tree; section 4.4:
`|sz| ≤ ZTHR`, or `vz ≠ 0` and `0 ≤ -sz/vz ≤ TCOA`. -/
def Sample.vertical_WCV (ZTHR TCOA sz vz : ℚ) : Bool :=
  decide (|sz| ≤ ZTHR) || (decide (vz ≠ 0) && decide (0 ≤ -sz / vz) && decide (-sz / vz ≤ TCOA))

/-- Time at which `sz + vz·t` reaches the altitude `dir·H`, for `vz ≠ 0`. -/
def Sample.Theta_H (sz vz dir H : ℚ) : ℚ := (dir * H - sz) / vz

/-- Modelled from the spec: `WCV_Vertical::vertical_WCV_interval` is not in the source tree;
section 4.4: the times of `[B,T]` at which `vertical_WCV` holds for `(sz + vz·t, vz)`, obtained by
solving the linear inequalities and clipping to `[B,T]`; the inverted sentinel `(T, B)` when there
is none. -/
def Sample.vertical_WCV_interval (ZTHR TCOA B T sz vz : ℚ) : WCV_Vertical :=
  if vz = 0 then
    if |sz| ≤ ZTHR then ⟨B, T⟩ else ⟨T, B⟩
  else
    let act_H := max ZTHR (|vz| * TCOA)
    let tentry := if 0 < vz then Sample.Theta_H sz vz (-1) act_H else Sample.Theta_H sz vz 1 act_H
    let texit := if 0 < vz then Sample.Theta_H sz vz 1 ZTHR else Sample.Theta_H sz vz (-1) ZTHR
    if T < tentry ∨ texit < B then ⟨T, B⟩ else ⟨max B tentry, min T texit⟩

/-- The collaborators of the concrete detector. -/
def Sample.externals : Externals where
  norm := Sample.norm
  dcpa := Sample.dcpa
  almost_equals := Sample.almost_equals
  vertical_WCV := Sample.vertical_WCV
  vertical_WCV_interval := Sample.vertical_WCV_interval

/-- A threshold table: `DTHR = 10`, `ZTHR = 20`, `TTHR = 20`, `TCOA = 5`. -/
def Sample.table : WCVTable := ⟨10, 20, 20, 5⟩

/-- A horizontal interval solver for aircraft with no relative horizontal motion: the whole window
`(0, d)` when the relative velocity is zero and the separation is within `DTHR`; in every other
case it reports the no-conflict sentinel `(d, 0)` of the window `[0, d]`. -/
def Sample.horizontal_WCV_interval (tbl : WCVTable) (d : ℚ) (s v : Vect2) : LossData :=
  if (v.x = 0 ∧ v.y = 0) ∧ Sample.norm s ≤ tbl.DTHR then ⟨0, d⟩ else ⟨d, 0⟩

/-- A concrete detector: `horizontal_tvar` is the time of closest point of approach. -/
def Sample.detector : WCV_tvar where
  table := Sample.table
  id := ""
  pvsCheck := false
  horizontal_tvar := Sample.tcpa
  horizontal_WCV_interval := Sample.horizontal_WCV_interval Sample.table

/-- The sample detector with the diagnostic flag `pvsCheck` switched on. -/
def Sample.detector_pvs : WCV_tvar where
  table := Sample.table
  id := ""
  pvsCheck := true
  horizontal_tvar := Sample.tcpa
  horizontal_WCV_interval := Sample.horizontal_WCV_interval Sample.table

/-! ## Conflict data (`conflictDetection`) -/

/-- Modelled from the spec: `Vect3::Sub` is not in the source tree; the "subtraction" of
section 4.1. -/
def Vect3.Sub (a b : Vect3) : Vect3 := ⟨a.x - b.x, a.y - b.y, a.z - b.z⟩

/-- Modelled from the spec: `Vect3::linear` is not in the source tree; the "linear extrapolation
`position(t) = p + v·t`" of section 4.1. -/
def Vect3.linear (p : Vect3) (v : Velocity) (t : ℚ) : Vect3 :=
  ⟨p.x + v.x * t, p.y + v.y * t, p.z + v.z * t⟩

/-- Modelled from the spec: class `ConflictData` is not in the source tree; section 3: it extends
the interval with the time of closest point of approach and a normalized severity distance.  The
constructor call `ConflictData(ret, t_tca, dist_tca)` fills the three parts in this order. -/
structure ConflictData extends LossData where
  time_crit : ℚ
  dist_crit : ℚ
deriving DecidableEq, Repr

/-- Method `WCV_tvar::conflictDetection` (lines 113-118).  The function `Vect3::cyl_norm(d, h)`,
whose body is not in the source tree, is the parameter `cyl_norm`. -/
def WCV_tvar.conflictDetection (E : Externals) (cyl_norm : Vect3 → ℚ → ℚ → ℚ) (w : WCV_tvar)
    (so : Vect3) (vo : Velocity) (si : Vect3) (vi : Velocity) (B T : ℚ) : ConflictData :=
  let ret := w.WCV3D E so vo si vi B T
  let t_tca := (ret.time_in + ret.time_out) / 2
  let dist_tca := cyl_norm ((so.linear vo t_tca).Sub (si.linear vi t_tca))
    w.table.DTHR w.table.ZTHR
  ConflictData.mk ret t_tca dist_tca

/-! ## Velocity (`Velocity.cpp`) -/

/-- Functions called by `Velocity.cpp` whose bodies are not in the source tree: `Util::sqrt_safe`,
`Vect3::norm`, and `sin`, `cos` of `<cmath>`. -/
structure MathFns where
  sqrt_safe : ℚ → ℚ
  norm3 : Vect3 → ℚ
  sin : ℚ → ℚ
  cos : ℚ → ℚ

/-- Method `Velocity::mkVxyz` (lines 44-46). -/
def Velocity.mkVxyz (vx vy vz : ℚ) : Velocity := ⟨⟨vx, vy, vz⟩⟩

/-- Constant `Velocity::ZEROV` (line 237). -/
def Velocity.ZEROV : Velocity := ⟨⟨0, 0, 0⟩⟩

/-- Method `Velocity::gs` (lines 125-127) in exact arithmetic; `Fl.Velocity.gs` is the method
with the rounding of its operations. -/
def Velocity.gs (M : MathFns) (v : Velocity) : ℚ := M.sqrt_safe (v.x * v.x + v.y * v.y)

/-- Method `Velocity::vs` (lines 133-135). -/
def Velocity.vs (v : Velocity) : ℚ := v.z

/-- Method `Velocity::mkGs(double gs_d)` (lines 269-279) in exact arithmetic, used to locate
its division; `Fl.Velocity.mkGs` is the method with the rounding of its operations.  The result
`none` stands for the invalid velocity `INVALIDV()`, whose components are NaN. -/
def Velocity.mkGs (M : MathFns) (v : Velocity) (gs_d : ℚ) : Option Velocity :=
  if gs_d < 0 then none
  else
    let gs0 := v.gs M
    if gs0 > 0 then
      let scal := gs_d / gs0
      some (Velocity.mkVxyz (v.x * scal) (v.y * scal) v.vs)
    else
      some (Velocity.mkVxyz 0 gs_d v.vs)

/-- Method `Velocity::Hat` (lines 311-320) in exact arithmetic, used to locate its divisions;
`Fl.Velocity.Hat` is the method with the rounding of its operations. -/
def Velocity.Hat (M : MathFns) (v : Velocity) : Velocity :=
  let n := M.norm3 v.toVect3
  if n = 0 then Velocity.ZEROV
  else Velocity.mkVxyz (v.x / n) (v.y / n) (v.z / n)

/-! ## Doubles with NaN

An embedding of `horizontal_WCV` and `WCV_interval` over doubles that may be NaN, used
for the propagation of invalid inputs.  The statements of the source are the same; only the
arithmetic differs: an operation with a NaN operand gives NaN, and a comparison with a NaN operand
is false.  The diagnostic output, which does not influence the result, is left out. -/

/-- A double: NaN or a rational value. -/
inductive Dbl where
  | nan : Dbl
  | val (q : ℚ) : Dbl
deriving DecidableEq, Repr

/-- Addition of doubles: NaN if an operand is NaN. -/
def Dbl.add : Dbl → Dbl → Dbl
  | Dbl.val a, Dbl.val b => Dbl.val (a + b)
  | _, _ => Dbl.nan

/-- Subtraction of doubles: NaN if an operand is NaN. -/
def Dbl.sub : Dbl → Dbl → Dbl
  | Dbl.val a, Dbl.val b => Dbl.val (a - b)
  | _, _ => Dbl.nan

/-- Multiplication of doubles: NaN if an operand is NaN. -/
def Dbl.mul : Dbl → Dbl → Dbl
  | Dbl.val a, Dbl.val b => Dbl.val (a * b)
  | _, _ => Dbl.nan

/-- Comparison `a <= b` of doubles: false if an operand is NaN. -/
def Dbl.le : Dbl → Dbl → Bool
  | Dbl.val a, Dbl.val b => decide (a ≤ b)
  | _, _ => false

/-- Comparison `a < b` of doubles: false if an operand is NaN. -/
def Dbl.lt : Dbl → Dbl → Bool
  | Dbl.val a, Dbl.val b => decide (a < b)
  | _, _ => false

/-- Absolute value of a double: NaN for NaN. -/
def Dbl.abs : Dbl → Dbl
  | Dbl.val a => Dbl.val |a|
  | Dbl.nan => Dbl.nan

/-- Division of doubles: NaN if an operand is NaN.  A quotient by zero, which is infinite or
NaN, has no rational value and is given as NaN. -/
def Dbl.div : Dbl → Dbl → Dbl
  | Dbl.val a, Dbl.val b => if b = 0 then Dbl.nan else Dbl.val (a / b)
  | _, _ => Dbl.nan

/-- Function `std::max(a, b)`: `b` if `a < b`, else `a`; with a NaN operand the comparison is
false and the result is `a`. -/
def Dbl.max (a b : Dbl) : Dbl := if a.lt b = true then b else a

/-- Function `std::min(a, b)`: `b` if `b < a`, else `a`; with a NaN operand the comparison is
false and the result is `a`. -/
def Dbl.min (a b : Dbl) : Dbl := if b.lt a = true then b else a

/-- Class `Vect2` over doubles with NaN. -/
structure FP.Vect2 where
  x : Dbl
  y : Dbl
deriving DecidableEq, Repr

/-- Class `Vect3` (and `Velocity`, which adds no member) over doubles with NaN. -/
structure FP.Vect3 where
  x : Dbl
  y : Dbl
  z : Dbl
deriving DecidableEq, Repr

/-- Modelled from the spec: `Vect2::Sub`, as `Vect2.Sub`, over doubles with NaN. -/
def FP.Vect2.Sub (a b : FP.Vect2) : FP.Vect2 := ⟨a.x.sub b.x, a.y.sub b.y⟩

/-- Modelled from the spec: `Vect2::ScalAdd`, as `Vect2.ScalAdd`, over doubles with NaN. -/
def FP.Vect2.ScalAdd (v : FP.Vect2) (k : Dbl) (s : FP.Vect2) : FP.Vect2 :=
  ⟨s.x.add (v.x.mul k), s.y.add (v.y.mul k)⟩

/-- Modelled from the spec: `Vect3::vect2`, as `Vect3.vect2`, over doubles with NaN. -/
def FP.Vect3.vect2 (v : FP.Vect3) : FP.Vect2 := ⟨v.x, v.y⟩

/-- Class `LossData` over doubles with NaN; also used for the object `WCV_Vertical wcvz`. -/
structure FP.LossData where
  time_in : Dbl
  time_out : Dbl
deriving DecidableEq, Repr

/-- Modelled from the spec: `LossData::conflict()`, `time_in < time_out`, over doubles with
NaN. -/
def FP.LossData.conflict (ld : FP.LossData) : Bool := ld.time_in.lt ld.time_out

/-- The functions of `Externals` that `WCV_interval` uses, over doubles with NaN. -/
structure FP.Externals where
  norm : FP.Vect2 → Dbl
  dcpa : FP.Vect2 → FP.Vect2 → Dbl
  almost_equals : Dbl → Dbl → Bool
  vertical_WCV_interval : Dbl → Dbl → Dbl → Dbl → Dbl → Dbl → FP.LossData

/-- Class `WCV_tvar` over doubles with NaN: the four thresholds of the table and the two pure
virtual members. -/
structure FP.WCV_tvar where
  DTHR : Dbl
  ZTHR : Dbl
  TTHR : Dbl
  TCOA : Dbl
  horizontal_tvar : FP.Vect2 → FP.Vect2 → Dbl
  horizontal_WCV_interval : Dbl → FP.Vect2 → FP.Vect2 → FP.LossData

/-- Method `WCV_tvar::horizontal_WCV` (lines 88-95) over doubles with NaN. -/
def FP.WCV_tvar.horizontal_WCV (E : FP.Externals) (w : FP.WCV_tvar) (s v : FP.Vect2) : Bool :=
  if (E.norm s).le w.DTHR then true
  else if (E.dcpa s v).le w.DTHR then
    let tvar := w.horizontal_tvar s v
    (Dbl.val 0).le tvar && tvar.le w.TTHR
  else false

/-- Method `WCV_tvar::WCV_interval` (lines 124-163) over doubles with NaN. -/
def FP.WCV_tvar.WCV_interval (E : FP.Externals) (w : FP.WCV_tvar) (so vo si vi : FP.Vect3)
    (B T : Dbl) : FP.LossData :=
  let T := if T.le B then Dbl.val DBL_MAX else T
  let time_in := T
  let time_out := B
  let so2 := so.vect2
  let si2 := si.vect2
  let s2 := so2.Sub si2
  let vo2 := vo.vect2
  let vi2 := vi.vect2
  let v2 := vo2.Sub vi2
  let sz := so.z.sub si.z
  let vz := vo.z.sub vi.z
  let wcvz := E.vertical_WCV_interval w.ZTHR w.TCOA B T sz vz
  if wcvz.time_out.lt wcvz.time_in then
    FP.LossData.mk time_in time_out
  else
    let step := v2.ScalAdd wcvz.time_in s2
    if E.almost_equals wcvz.time_in wcvz.time_out then
      if w.horizontal_WCV E step v2 then
        FP.LossData.mk wcvz.time_in wcvz.time_out
      else
        FP.LossData.mk time_in time_out
    else
      let ld := w.horizontal_WCV_interval (wcvz.time_out.sub wcvz.time_in) step v2
      let time_in := ld.time_in.add wcvz.time_in
      let time_out := ld.time_out.add wcvz.time_in
      FP.LossData.mk time_in time_out

/-- The rational vector of a vector without NaN component. -/
def FP.Vect2.toRat : FP.Vect2 → Option larcfm.Vect2
  | ⟨Dbl.val a, Dbl.val b⟩ => some ⟨a, b⟩
  | _ => none

/-- The sample norm over doubles with NaN: NaN on a vector with a NaN component. -/
def FP.Sample.norm (s : FP.Vect2) : Dbl :=
  match s.toRat with
  | some q => Dbl.val (larcfm.Sample.norm q)
  | none => Dbl.nan

/-- The sample `dcpa` over doubles with NaN: NaN when an argument has a NaN component. -/
def FP.Sample.dcpa (s v : FP.Vect2) : Dbl :=
  match s.toRat, v.toRat with
  | some p, some q => Dbl.val (larcfm.Sample.dcpa p q)
  | _, _ => Dbl.nan

/-- The sample time of closest approach over doubles with NaN. -/
def FP.Sample.tcpa (s v : FP.Vect2) : Dbl :=
  match s.toRat, v.toRat with
  | some p, some q => Dbl.val (larcfm.Sample.tcpa p q)
  | _, _ => Dbl.nan

/-- The sample `almost_equals` over doubles with NaN: false when an argument is NaN. -/
def FP.Sample.almost_equals : Dbl → Dbl → Bool
  | Dbl.val a, Dbl.val b => larcfm.Sample.almost_equals a b
  | _, _ => false

/-- Time at which `sz + vz·t` reaches the altitude `dir·H`, over doubles with NaN. -/
def FP.Sample.Theta_H (sz vz dir H : Dbl) : Dbl := ((dir.mul H).sub sz).div vz

/-- The sample vertical model over doubles with NaN: the statements of
`Sample.vertical_WCV_interval` with the operations and comparisons of doubles.  A comparison
with NaN is false, so for a NaN vertical speed every test fails and the clipping
`(max(B, tentry), min(T, texit))` with NaN times returns the whole window `(B, T)`. -/
def FP.Sample.vertical_WCV_interval (ZTHR TCOA B T sz vz : Dbl) : FP.LossData :=
  if vz = Dbl.val 0 then
    if sz.abs.le ZTHR = true then ⟨B, T⟩ else ⟨T, B⟩
  else
    let act_H := Dbl.max ZTHR (vz.abs.mul TCOA)
    let tentry :=
      if (Dbl.val 0).lt vz = true then FP.Sample.Theta_H sz vz (Dbl.val (-1)) act_H
      else FP.Sample.Theta_H sz vz (Dbl.val 1) act_H
    let texit :=
      if (Dbl.val 0).lt vz = true then FP.Sample.Theta_H sz vz (Dbl.val 1) ZTHR
      else FP.Sample.Theta_H sz vz (Dbl.val (-1)) ZTHR
    if T.lt tentry = true ∨ texit.lt B = true then ⟨T, B⟩
    else ⟨Dbl.max B tentry, Dbl.min T texit⟩

/-- The sample horizontal solver over doubles with NaN: the statement of
`Sample.horizontal_WCV_interval`, for the threshold `DTHR = 10` of the sample table, with the
comparisons of doubles, which are false on NaN.  On NaN-bearing geometry the test fails and the
solver returns its sentinel `(d, 0)`. -/
def FP.Sample.horizontal_WCV_interval (d : Dbl) (s v : FP.Vect2) : FP.LossData :=
  if (v.x = Dbl.val 0 ∧ v.y = Dbl.val 0) ∧ (FP.Sample.norm s).le (Dbl.val 10) = true then
    ⟨Dbl.val 0, d⟩
  else ⟨d, Dbl.val 0⟩

/-- The collaborators of the sample detector over doubles with NaN. -/
def FP.Sample.externals : FP.Externals where
  norm := FP.Sample.norm
  dcpa := FP.Sample.dcpa
  almost_equals := FP.Sample.almost_equals
  vertical_WCV_interval := FP.Sample.vertical_WCV_interval

/-- The sample detector over doubles with NaN (`DTHR = 10`, `ZTHR = 20`, `TTHR = 20`,
`TCOA = 5`). -/
def FP.Sample.detector : FP.WCV_tvar where
  DTHR := Dbl.val 10
  ZTHR := Dbl.val 20
  TTHR := Dbl.val 20
  TCOA := Dbl.val 5
  horizontal_tvar := FP.Sample.tcpa
  horizontal_WCV_interval := FP.Sample.horizontal_WCV_interval

/-- The upper bound in force after the first statement of `WCV_interval`, over doubles with
NaN. -/
def FP.horizon (B T : Dbl) : Dbl := if T.le B then Dbl.val DBL_MAX else T

/-- The relative horizontal position `s2`, over doubles with NaN. -/
def FP.rel_s2 (so si : FP.Vect3) : FP.Vect2 := so.vect2.Sub si.vect2

/-- The relative horizontal velocity `v2`, over doubles with NaN. -/
def FP.rel_v2 (vo vi : FP.Vect3) : FP.Vect2 := vo.vect2.Sub vi.vect2

/-- The vertical closure interval `wcvz` that `WCV_interval` computes, over doubles with NaN. -/
def FP.WCV_tvar.wcvz (E : FP.Externals) (w : FP.WCV_tvar) (so vo si vi : FP.Vect3)
    (B T : Dbl) : FP.LossData :=
  E.vertical_WCV_interval w.ZTHR w.TCOA B (FP.horizon B T) (so.z.sub si.z) (vo.z.sub vi.z)

/-- The value `step` of `WCV_interval`, over doubles with NaN. -/
def FP.WCV_tvar.step (E : FP.Externals) (w : FP.WCV_tvar) (so vo si vi : FP.Vect3)
    (B T : Dbl) : FP.Vect2 :=
  (FP.rel_v2 vo vi).ScalAdd (w.wcvz E so vo si vi B T).time_in (FP.rel_s2 so si)

/-! ## Velocity: `genVel` and the divisions -/

/-- Modelled from the spec: `Vect3::Scal` is not in the source tree; the "scalar multiply" of
section 4.1. -/
def Vect3.Scal (v : Vect3) (k : ℚ) : Vect3 := ⟨k * v.x, k * v.y, k * v.z⟩

/-- Method `Velocity::make(const Vect3&)` (lines 36-38). -/
def Velocity.make (v : Vect3) : Velocity := ⟨⟨v.x, v.y, v.z⟩⟩

/-- Method `Velocity::genVel` (lines 79-81).  The quotient `1/dt` is the division of `ℚ`, which
is total (`1/0 = 0`); `Velocity.genVel_div` below records whether the divisor is zero. -/
def Velocity.genVel (p1 p2 : Vect3) (dt : ℚ) : Velocity :=
  Velocity.make ((p2.Sub p1).Scal (1 / dt))

/-- The outcome of a computation whose divisions are checked: a value, or the mark that a
division with divisor zero was reached. -/
inductive DivCheck (α : Type) where
  | value (a : α) : DivCheck α
  | divisionByZero : DivCheck α
deriving DecidableEq, Repr

/-- The division `a / b` of two doubles, checked: it is marked when `b` is zero. -/
def DivCheck.div (a b : ℚ) : DivCheck ℚ :=
  if b = 0 then DivCheck.divisionByZero else DivCheck.value (a / b)

/-- Method `Velocity::Hat` (lines 311-320) with its three divisions checked. -/
def Velocity.Hat_div (M : MathFns) (v : Velocity) : DivCheck Velocity :=
  let n := M.norm3 v.toVect3
  if n = 0 then DivCheck.value Velocity.ZEROV
  else
    match DivCheck.div v.x n, DivCheck.div v.y n, DivCheck.div v.z n with
    | DivCheck.value a, DivCheck.value b, DivCheck.value c =>
      DivCheck.value (Velocity.mkVxyz a b c)
    | _, _, _ => DivCheck.divisionByZero

/-- Method `Velocity::mkGs(double gs_d)` (lines 269-279) with its division checked. -/
def Velocity.mkGs_div (M : MathFns) (v : Velocity) (gs_d : ℚ) : DivCheck (Option Velocity) :=
  if gs_d < 0 then DivCheck.value none
  else
    let gs0 := v.gs M
    if gs0 > 0 then
      match DivCheck.div gs_d gs0 with
      | DivCheck.value scal =>
        DivCheck.value (some (Velocity.mkVxyz (v.x * scal) (v.y * scal) v.vs))
      | DivCheck.divisionByZero => DivCheck.divisionByZero
    else
      DivCheck.value (some (Velocity.mkVxyz 0 gs_d v.vs))

/-- Method `Velocity::genVel` (lines 79-81) with its division checked. -/
def Velocity.genVel_div (p1 p2 : Vect3) (dt : ℚ) : DivCheck Velocity :=
  match DivCheck.div 1 dt with
  | DivCheck.value k => DivCheck.value (Velocity.make ((p2.Sub p1).Scal k))
  | DivCheck.divisionByZero => DivCheck.divisionByZero

/-! ## Double arithmetic with rounding

An embedding for the properties that depend on the rounding of doubles.  A finite double is the
rational number it stands for; every arithmetic operation of the source returns the double
nearest to the exact result (IEEE 754 binary64, round to nearest, ties to even), each operation
being rounded on its own (no fused multiply-add, no extended precision).  An operation has no
value in this embedding when its result leaves the range of the normal doubles: when it
overflows, when a non-zero result is below the smallest normal double, or when the divisor is
zero.  A method has a value when all its operations have one. -/

/-- The integer nearest to `q`, the even one of the two when `q` is half-way between them. -/
def roundHalfEven (q : ℚ) : ℤ :=
  if q - ⌊q⌋ < 1 / 2 then ⌊q⌋
  else if 1 / 2 < q - ⌊q⌋ then ⌊q⌋ + 1
  else if ⌊q⌋ % 2 = 0 then ⌊q⌋ else ⌊q⌋ + 1

/-- The number with a significand of 53 bits nearest to `x`, ties to even, the exponent being
unbounded: `m · 2^e` with `e = ⌊log₂ |x|⌋ - 52` and `m` the integer nearest to `|x| / 2^e`. -/
def round53 (x : ℚ) : ℚ :=
  if x = 0 then 0
  else (if 0 < x then 1 else -1)
    * (roundHalfEven (|x| / 2 ^ (Int.log 2 |x| - 52)) : ℚ) * 2 ^ (Int.log 2 |x| - 52)

/-- Constant `DBL_MIN` of `<cfloat>`: the smallest positive normal double. -/
def DBL_MIN : ℚ := 2 ^ (-1022 : ℤ)

/-- The unit roundoff `2^-53` of doubles. -/
def Fl.u : ℚ := 1 / 2 ^ 53

/-- The double that an operation returns when its exact result is `x`: zero for zero, the
nearest double when `|x|` is at least `DBL_MIN` and the nearest double is at most `DBL_MAX`,
and no value otherwise. -/
def Fl.rnd (x : ℚ) : Option ℚ :=
  if x = 0 then some 0
  else if DBL_MIN ≤ |x| ∧ |round53 x| ≤ DBL_MAX then some (round53 x)
  else none

/-- The sum `a + b` of two doubles. -/
def Fl.add (a b : ℚ) : Option ℚ := Fl.rnd (a + b)

/-- The difference `a - b` of two doubles. -/
def Fl.sub (a b : ℚ) : Option ℚ := Fl.rnd (a - b)

/-- The product `a * b` of two doubles. -/
def Fl.mul (a b : ℚ) : Option ℚ := Fl.rnd (a * b)

/-- The quotient `a / b` of two doubles; no value when `b` is zero. -/
def Fl.div (a b : ℚ) : Option ℚ := if b = 0 then none else Fl.rnd (a / b)

/-- Modelled from the spec: `Vect2::Sub`, as `Vect2.Sub`, in double arithmetic. -/
def Fl.Vect2.Sub (a b : Vect2) : Option Vect2 := do
  let x ← Fl.sub a.x b.x
  let y ← Fl.sub a.y b.y
  pure ⟨x, y⟩

/-- Modelled from the spec: `Vect2::ScalAdd`, as `Vect2.ScalAdd`, in double arithmetic. -/
def Fl.Vect2.ScalAdd (v : Vect2) (k : ℚ) (s : Vect2) : Option Vect2 := do
  let px ← Fl.mul v.x k
  let x ← Fl.add s.x px
  let py ← Fl.mul v.y k
  let y ← Fl.add s.y py
  pure ⟨x, y⟩

/-- Method `WCV_tvar::WCV_interval` (lines 124-163) in double arithmetic.  The statements are
those of `WCV_tvar.WCV_interval_io`; the differences and sums of lines 133-143 and 157-160 and
the operations of `Sub` and `ScalAdd` are rounded.  The diagnostic lines are left out. -/
def Fl.WCV_tvar.WCV_interval (E : Externals) (w : WCV_tvar) (so : Vect3) (vo : Velocity)
    (si : Vect3) (vi : Velocity) (B T : ℚ) : Option LossData :=
  let T := if T ≤ B then DBL_MAX else T
  let time_in := T
  let time_out := B
  let so2 := so.vect2
  let si2 := si.vect2
  let vo2 := vo.vect2
  let vi2 := vi.vect2
  match Fl.Vect2.Sub so2 si2, Fl.Vect2.Sub vo2 vi2, Fl.sub so.z si.z, Fl.sub vo.z vi.z with
  | some s2, some v2, some sz, some vz =>
    let wcvz := E.vertical_WCV_interval w.table.ZTHR w.table.TCOA B T sz vz
    if wcvz.time_in > wcvz.time_out then
      some (LossData.mk time_in time_out)
    else
      match Fl.Vect2.ScalAdd v2 wcvz.time_in s2 with
      | some step =>
        if E.almost_equals wcvz.time_in wcvz.time_out then
          if w.horizontal_WCV E step v2 then
            some (LossData.mk wcvz.time_in wcvz.time_out)
          else
            some (LossData.mk time_in time_out)
        else
          match Fl.sub wcvz.time_out wcvz.time_in with
          | some d =>
            let ld := w.horizontal_WCV_interval d step v2
            match Fl.add ld.time_in wcvz.time_in, Fl.add ld.time_out wcvz.time_in with
            | some time_in, some time_out => some (LossData.mk time_in time_out)
            | _, _ => none
          | none => none
      | none => none
  | _, _, _, _ => none

/-- The numeric functions that `Velocity` takes from the C++ library and from classes that are
not in the source tree, on doubles: `Util::sqrt_safe`, `Vect3::norm` (no value when the norm is
outside the range of the normal doubles), `sin` and `cos`. -/
structure Fl.MathFns where
  sqrt_safe : ℚ → ℚ
  norm3 : Vect3 → Option ℚ
  sin : ℚ → ℚ
  cos : ℚ → ℚ

/-- Method `Velocity::trkgs2vx` (lines 89-91) in double arithmetic. -/
def Fl.Velocity.trkgs2vx (M : Fl.MathFns) (trk gs : ℚ) : Option ℚ := Fl.mul gs (M.sin trk)

/-- Method `Velocity::trkgs2vy` (lines 93-95) in double arithmetic. -/
def Fl.Velocity.trkgs2vy (M : Fl.MathFns) (trk gs : ℚ) : Option ℚ := Fl.mul gs (M.cos trk)

/-- Method `Velocity::mkTrkGsVs` (lines 59-61) in double arithmetic. -/
def Fl.Velocity.mkTrkGsVs (M : Fl.MathFns) (trk gs vs : ℚ) : Option Velocity :=
  match Fl.Velocity.trkgs2vx M trk gs, Fl.Velocity.trkgs2vy M trk gs with
  | some vx, some vy => some ⟨⟨vx, vy, vs⟩⟩
  | _, _ => none

/-- Method `Velocity::gs` (lines 125-127) in double arithmetic: the two products and the sum
are rounded before the root is taken. -/
def Fl.Velocity.gs (M : Fl.MathFns) (v : Velocity) : Option ℚ :=
  match Fl.mul v.x v.x, Fl.mul v.y v.y with
  | some xx, some yy =>
    match Fl.add xx yy with
    | some s => some (M.sqrt_safe s)
    | none => none
  | _, _ => none

/-- Method `Velocity::mkTrk(double trk)` (lines 250-252) in double arithmetic. -/
def Fl.Velocity.mkTrk (M : Fl.MathFns) (v : Velocity) (trk : ℚ) : Option Velocity :=
  match Fl.Velocity.gs M v with
  | some g => Fl.Velocity.mkTrkGsVs M trk g v.vs
  | none => none

/-- Method `Velocity::mkGs(double gs_d)` (lines 269-279) in double arithmetic.  The result
`some none` stands for the invalid velocity `INVALIDV()`. -/
def Fl.Velocity.mkGs (M : Fl.MathFns) (v : Velocity) (gs_d : ℚ) : Option (Option Velocity) :=
  if gs_d < 0 then some none
  else
    match Fl.Velocity.gs M v with
    | some gs0 =>
      if gs0 > 0 then
        match Fl.div gs_d gs0 with
        | some scal =>
          match Fl.mul v.x scal, Fl.mul v.y scal with
          | some vx, some vy => some (some (larcfm.Velocity.mkVxyz vx vy v.vs))
          | _, _ => none
        | none => none
      else
        some (some (larcfm.Velocity.mkVxyz 0 gs_d v.vs))
    | none => none

/-- Method `Velocity::Hat` (lines 311-320) in double arithmetic. -/
def Fl.Velocity.Hat (M : Fl.MathFns) (v : Velocity) : Option Velocity :=
  match M.norm3 v.toVect3 with
  | some n =>
    if n = 0 then some larcfm.Velocity.ZEROV
    else
      match Fl.div v.x n, Fl.div v.y n, Fl.div v.z n with
      | some vx, some vy, some vz => some (larcfm.Velocity.mkVxyz vx vy vz)
      | _, _, _ => none
  | none => none

/-- The double nearest to the square root of the positive double `x` (the function `sqrt` of
the C++ library is correctly rounded), and 0 for `x ≤ 0`.  With `k` chosen so that `x · 4^k` is
at least `2^110`, and `q` the integer square root of `⌊x · 4^k⌋`, the root of `x · 4^k` is `q` or
lies strictly between `q` and `q + 1`, where no number with 53 significant bits and no mid-point
of two of them lies; it is rounded as `q` or as `q + 1/2`. -/
def Fl.sqrt (x : ℚ) : ℚ :=
  if x ≤ 0 then 0
  else
    let k : ℤ := 55 - Int.log 2 x / 2
    let q : ℕ := Nat.sqrt ⌊x * 4 ^ k⌋₊
    round53 (((q : ℚ) + (if (q : ℚ) * q = x * 4 ^ k then 0 else 1 / 2)) / 2 ^ k)

/-- Modelled from the spec: `Util::sqrt_safe` is not in the source tree; the square root of the
argument, taken as `0` when the argument is negative. -/
def Fl.sqrt_safe (x : ℚ) : ℚ := Fl.sqrt (max x 0)

/-- Modelled from the spec: `Vect3::norm` is not in the source tree; the "Euclidean norm" of
section 4.1, the root of `x*x + y*y + z*z` in double arithmetic. -/
def Fl.norm3 (v : Vect3) : Option ℚ :=
  match Fl.mul v.x v.x, Fl.mul v.y v.y, Fl.mul v.z v.z with
  | some xx, some yy, some zz =>
    match Fl.add xx yy with
    | some s =>
      match Fl.add s zz with
      | some t => some (Fl.sqrt t)
      | none => none
    | none => none
  | _, _, _ => none

/-- The Taylor polynomial of degree 27 of the sine.  For `|t| ≤ 1` it differs from the sine by
less than `2^-97`. -/
def Fl.sinPoly (t : ℚ) : ℚ :=
  ∑ k ∈ Finset.range 14, (-1) ^ k * t ^ (2 * k + 1) / ((2 * k + 1).factorial : ℚ)

/-- The Taylor polynomial of degree 26 of the cosine.  For `|t| ≤ 1` it differs from the cosine
by less than `2^-97`. -/
def Fl.cosPoly (t : ℚ) : ℚ :=
  ∑ k ∈ Finset.range 14, (-1) ^ k * t ^ (2 * k) / ((2 * k).factorial : ℚ)

/-- The function `sin` of the C++ library on a double `t` with `|t| ≤ 1`, taken to be correctly
rounded: the double nearest to the Taylor polynomial, which is the double nearest to the sine
unless the sine is within `2^-97` of the mid-point of two doubles.  At the angles used below it
is proved to be the double nearest to the sine (`Fl.sin_quarter_nearest`,
`Fl.sin_half_nearest`). -/
def Fl.sin (t : ℚ) : ℚ := round53 (Fl.sinPoly t)

/-- The function `cos` of the C++ library on a double `t` with `|t| ≤ 1`, taken to be correctly
rounded, as `Fl.sin`: the double nearest to the Taylor polynomial of the cosine
(`Fl.cos_quarter_nearest`, `Fl.cos_half_nearest`). -/
def Fl.cos (t : ℚ) : ℚ := round53 (Fl.cosPoly t)

/-- The numeric functions used to evaluate `Velocity` on concrete inputs: correctly rounded
root, sine and cosine, and the norm computed from them. -/
def Fl.math : Fl.MathFns where
  sqrt_safe := Fl.sqrt_safe
  norm3 := Fl.norm3
  sin := Fl.sin
  cos := Fl.cos

/-! ## Case analysis of `WCV_interval` -/

/-- Case 1 of `WCV_interval`: the vertical interval is inverted. -/
theorem WCV_interval_case1 (E : Externals) (w : WCV_tvar) (so : Vect3) (vo : Velocity)
    (si : Vect3) (vi : Velocity) (B T : ℚ)
    (h : (w.wcvz E so vo si vi B T).time_out < (w.wcvz E so vo si vi B T).time_in) :
    w.WCV_interval E so vo si vi B T = ⟨horizon B T, B⟩ := by
  simp only [WCV_tvar.wcvz, horizon] at h
  simp only [WCV_tvar.WCV_interval, WCV_tvar.WCV_interval_io, horizon, gt_iff_lt, if_pos h]

/-- Case 2 of `WCV_interval`: the vertical interval is a single instant up to tolerance. -/
theorem WCV_interval_case2 (E : Externals) (w : WCV_tvar) (so : Vect3) (vo : Velocity)
    (si : Vect3) (vi : Velocity) (B T : ℚ)
    (h : ¬ (w.wcvz E so vo si vi B T).time_out < (w.wcvz E so vo si vi B T).time_in)
    (ha : E.almost_equals (w.wcvz E so vo si vi B T).time_in
      (w.wcvz E so vo si vi B T).time_out = true) :
    w.WCV_interval E so vo si vi B T =
      if w.horizontal_WCV E (w.step E so vo si vi B T) (rel_v2 vo vi) = true then
        ⟨(w.wcvz E so vo si vi B T).time_in, (w.wcvz E so vo si vi B T).time_out⟩
      else ⟨horizon B T, B⟩ := by
  simp only [WCV_tvar.step, WCV_tvar.wcvz, horizon, rel_s2, rel_v2] at h ha ⊢
  simp only [WCV_tvar.WCV_interval, WCV_tvar.WCV_interval_io, gt_iff_lt, if_neg h, ha, if_true]
  split_ifs <;> rfl

/-- Case 3 of `WCV_interval`: the general case. -/
theorem WCV_interval_case3 (E : Externals) (w : WCV_tvar) (so : Vect3) (vo : Velocity)
    (si : Vect3) (vi : Velocity) (B T : ℚ)
    (h : ¬ (w.wcvz E so vo si vi B T).time_out < (w.wcvz E so vo si vi B T).time_in)
    (ha : E.almost_equals (w.wcvz E so vo si vi B T).time_in
      (w.wcvz E so vo si vi B T).time_out = false) :
    w.WCV_interval E so vo si vi B T =
      ⟨(w.horizontal_WCV_interval
          ((w.wcvz E so vo si vi B T).time_out - (w.wcvz E so vo si vi B T).time_in)
          (w.step E so vo si vi B T) (rel_v2 vo vi)).time_in
        + (w.wcvz E so vo si vi B T).time_in,
       (w.horizontal_WCV_interval
          ((w.wcvz E so vo si vi B T).time_out - (w.wcvz E so vo si vi B T).time_in)
          (w.step E so vo si vi B T) (rel_v2 vo vi)).time_out
        + (w.wcvz E so vo si vi B T).time_in⟩ := by
  simp only [WCV_tvar.step, WCV_tvar.wcvz, horizon, rel_s2, rel_v2] at h ha ⊢
  simp only [WCV_tvar.WCV_interval, WCV_tvar.WCV_interval_io, gt_iff_lt, if_neg h, ha]
  rfl

/-- When `B < T` the horizon is the supplied `T`. -/
theorem horizon_of_lt {B T : ℚ} (h : B < T) : horizon B T = T := by
  simp [horizon, not_le.mpr h]

/-- When `T ≤ B` the horizon is `DBL_MAX`. -/
theorem horizon_of_le {B T : ℚ} (h : T ≤ B) : horizon B T = DBL_MAX := by
  simp [horizon, h]

/-- A finite lower bound is at most the horizon when it is at most `DBL_MAX`. -/
theorem le_horizon {B T : ℚ} (hB : B ≤ DBL_MAX) : B ≤ horizon B T := by
  unfold horizon
  split_ifs with h
  · exact hB
  · exact le_of_lt (not_le.mp h)

/-- The vertical interval of the sample detector for an ownship 100 below the intruder climbing
at 10, over `[0, 100]`. -/
theorem Sample.wcvz_climb (x y : ℚ) :
    Sample.detector.wcvz Sample.externals ⟨x, y, -100⟩ ⟨⟨0, 0, 10⟩⟩ ⟨0, 0, 0⟩ ⟨⟨0, 0, 0⟩⟩ 0 100
      = ⟨5, 12⟩ := by
  simp [WCV_tvar.wcvz, horizon, Sample.detector, Sample.externals, Sample.table,
    Sample.vertical_WCV_interval, Sample.Theta_H]
  norm_num

/-- For `B < T` the vertical interval read by `WCV_interval` is the one computed over `[B,T]`. -/
theorem wcvz_of_lt (E : Externals) (w : WCV_tvar) (so : Vect3) (vo : Velocity)
    (si : Vect3) (vi : Velocity) {B T : ℚ} (hBT : B < T) :
    w.wcvz E so vo si vi B T
      = E.vertical_WCV_interval w.table.ZTHR w.table.TCOA B T (so.z - si.z) (vo.z - vi.z) := by
  rw [WCV_tvar.wcvz, horizon_of_lt hBT]

/-- The result of `WCV_interval` as a function of the horizon, the vertical interval, `step`
and `v2`. -/
theorem WCV_interval_eq (E : Externals) (w : WCV_tvar) (so : Vect3) (vo : Velocity)
    (si : Vect3) (vi : Velocity) (B T : ℚ) :
    w.WCV_interval E so vo si vi B T =
      if (w.wcvz E so vo si vi B T).time_out < (w.wcvz E so vo si vi B T).time_in then
        ⟨horizon B T, B⟩
      else if E.almost_equals (w.wcvz E so vo si vi B T).time_in
          (w.wcvz E so vo si vi B T).time_out = true then
        if w.horizontal_WCV E (w.step E so vo si vi B T) (rel_v2 vo vi) = true then
          ⟨(w.wcvz E so vo si vi B T).time_in, (w.wcvz E so vo si vi B T).time_out⟩
        else ⟨horizon B T, B⟩
      else
        ⟨(w.horizontal_WCV_interval
            ((w.wcvz E so vo si vi B T).time_out - (w.wcvz E so vo si vi B T).time_in)
            (w.step E so vo si vi B T) (rel_v2 vo vi)).time_in
          + (w.wcvz E so vo si vi B T).time_in,
         (w.horizontal_WCV_interval
            ((w.wcvz E so vo si vi B T).time_out - (w.wcvz E so vo si vi B T).time_in)
            (w.step E so vo si vi B T) (rel_v2 vo vi)).time_out
          + (w.wcvz E so vo si vi B T).time_in⟩ := by
  by_cases h : (w.wcvz E so vo si vi B T).time_out < (w.wcvz E so vo si vi B T).time_in
  · rw [if_pos h, WCV_interval_case1 E w so vo si vi B T h]
  · rw [if_neg h]
    cases ha : E.almost_equals (w.wcvz E so vo si vi B T).time_in
        (w.wcvz E so vo si vi B T).time_out
    · rw [WCV_interval_case3 E w so vo si vi B T h ha]
      simp
    · rw [WCV_interval_case2 E w so vo si vi B T h ha]
      simp

/-- Swapping the aircraft negates the relative horizontal position. -/
theorem rel_s2_swap (so si : Vect3) : rel_s2 si so = (rel_s2 so si).Neg := by
  simp [rel_s2, Vect2.Sub, Vect2.Neg, Vect3.vect2]

/-- Swapping the aircraft negates the relative horizontal velocity. -/
theorem rel_v2_swap (vo vi : Velocity) : rel_v2 vi vo = (rel_v2 vo vi).Neg := by
  simp [rel_v2, Vect2.Sub, Vect2.Neg, Vect3.vect2]

/-- Linear extrapolation commutes with negation. -/
theorem ScalAdd_Neg (v s : Vect2) (k : ℚ) : v.Neg.ScalAdd k s.Neg = (v.ScalAdd k s).Neg := by
  simp only [Vect2.ScalAdd, Vect2.Neg, Vect2.mk.injEq]
  constructor <;> ring

/-- Extrapolating with zero velocity leaves the position unchanged. -/
theorem ScalAdd_zero_vel (s : Vect2) (k : ℚ) : Vect2.ScalAdd ⟨0, 0⟩ k s = s := by
  simp [Vect2.ScalAdd]

/-- The sample norm is even. -/
theorem Sample.norm_Neg (s : Vect2) : Sample.norm s.Neg = Sample.norm s := by
  simp [Sample.norm, Vect2.Neg]

/-- The sample time of closest approach is invariant under simultaneous negation. -/
theorem Sample.tcpa_Neg (s v : Vect2) : Sample.tcpa s.Neg v.Neg = Sample.tcpa s v := by
  simp [Sample.tcpa, Vect2.Neg]

/-- The sample distance at closest approach is invariant under simultaneous negation. -/
theorem Sample.dcpa_Neg (s v : Vect2) : Sample.dcpa s.Neg v.Neg = Sample.dcpa s v := by
  rw [Sample.dcpa, Sample.dcpa, Sample.tcpa_Neg, ScalAdd_Neg, Sample.norm_Neg]

/-- The sample vertical interval is invariant under simultaneous negation of the relative
vertical position and velocity. -/
theorem Sample.vertical_WCV_interval_neg (ZTHR TCOA B T sz vz : ℚ) :
    Sample.vertical_WCV_interval ZTHR TCOA B T (-sz) (-vz)
      = Sample.vertical_WCV_interval ZTHR TCOA B T sz vz := by
  unfold Sample.vertical_WCV_interval
  by_cases hvz : vz = 0
  · simp [hvz]
  · have hn : -vz ≠ 0 := neg_ne_zero.mpr hvz
    rw [if_neg hvz, if_neg hn]
    rcases lt_or_gt_of_ne hvz with hneg | hpos
    · have h1 : (0 : ℚ) < -vz := by linarith
      have h2 : ¬ (0 : ℚ) < vz := by linarith
      have e1 : ∀ H : ℚ, Sample.Theta_H (-sz) (-vz) (-1) H = Sample.Theta_H sz vz 1 H := by
        intro H
        simp only [Sample.Theta_H]
        field_simp
        ring
      have e2 : ∀ H : ℚ, Sample.Theta_H (-sz) (-vz) 1 H = Sample.Theta_H sz vz (-1) H := by
        intro H
        simp only [Sample.Theta_H]
        field_simp
        ring
      simp only [if_pos h1, if_neg h2, abs_neg, e1, e2]
    · have h1 : ¬ (0 : ℚ) < -vz := by linarith
      have e1 : ∀ H : ℚ, Sample.Theta_H (-sz) (-vz) (-1) H = Sample.Theta_H sz vz 1 H := by
        intro H
        simp only [Sample.Theta_H]
        field_simp
        ring
      have e2 : ∀ H : ℚ, Sample.Theta_H (-sz) (-vz) 1 H = Sample.Theta_H sz vz (-1) H := by
        intro H
        simp only [Sample.Theta_H]
        field_simp
        ring
      simp only [if_neg h1, if_pos hpos, abs_neg, e1, e2]

/-! ## Claims -/

/-- C1. Case C of `WCV_interval`: whenever the vertical closure interval `(vt_in, vt_out)` computed
over the horizon satisfies `vt_in < vt_out` and is not almost-equal, the returned interval is
`(ld.time_in + vt_in, ld.time_out + vt_in)` with
`ld = horizontal_WCV_interval(vt_out - vt_in, s2 + v2·vt_in, v2)`. -/
theorem C1_general_overlap (E : Externals) (w : WCV_tvar) (so : Vect3) (vo : Velocity)
    (si : Vect3) (vi : Velocity) (B T : ℚ)
    (hlt : (w.wcvz E so vo si vi B T).time_in < (w.wcvz E so vo si vi B T).time_out)
    (hne : E.almost_equals (w.wcvz E so vo si vi B T).time_in
      (w.wcvz E so vo si vi B T).time_out = false) :
    w.WCV_interval E so vo si vi B T =
      ⟨(w.horizontal_WCV_interval
          ((w.wcvz E so vo si vi B T).time_out - (w.wcvz E so vo si vi B T).time_in)
          ((rel_v2 vo vi).ScalAdd (w.wcvz E so vo si vi B T).time_in (rel_s2 so si))
          (rel_v2 vo vi)).time_in + (w.wcvz E so vo si vi B T).time_in,
       (w.horizontal_WCV_interval
          ((w.wcvz E so vo si vi B T).time_out - (w.wcvz E so vo si vi B T).time_in)
          ((rel_v2 vo vi).ScalAdd (w.wcvz E so vo si vi B T).time_in (rel_s2 so si))
          (rel_v2 vo vi)).time_out + (w.wcvz E so vo si vi B T).time_in⟩ :=
  WCV_interval_case3 E w so vo si vi B T (not_lt.mpr (le_of_lt hlt)) hne

/-- Witness for C1: the sample detector, ownship at `(3, 4, -100)` climbing at 10 towards a
stationary intruder at the origin, horizon `[0, 100]`; the vertical interval is `(5, 12)`, the
horizontal interval over `[0, 7]` is `(0, 7)` and the result is `(5, 12)`. -/
theorem C1_general_overlap_witness :
    Sample.detector.WCV_interval Sample.externals ⟨3, 4, -100⟩ ⟨⟨0, 0, 10⟩⟩ ⟨0, 0, 0⟩ ⟨⟨0, 0, 0⟩⟩
      0 100 = ⟨5, 12⟩ := by
  have h := C1_general_overlap Sample.externals Sample.detector ⟨3, 4, -100⟩ ⟨⟨0, 0, 10⟩⟩
    ⟨0, 0, 0⟩ ⟨⟨0, 0, 0⟩⟩ 0 100
    (by rw [Sample.wcvz_climb]; norm_num)
    (by rw [Sample.wcvz_climb]; simp [Sample.externals, Sample.almost_equals]; norm_num)
  rw [h, Sample.wcvz_climb]
  simp [Sample.detector, Sample.horizontal_WCV_interval, Sample.table, Sample.norm, rel_v2,
    rel_s2, Vect3.vect2, Vect2.Sub, Vect2.ScalAdd]
  norm_num

/-- C2. Case A of `WCV_interval`: if the vertical closure interval computed over the horizon for
the relative vertical state `(so.z - si.z, vo.z - vi.z)` has `time_in > time_out`, the result is
the inverted sentinel `(T, B)` (with `T` the upper bound in force, which is the supplied `T` when
`B < T`) and it is not a conflict, whatever the horizontal geometry is.  The hypothesis
`B ≤ DBL_MAX` says that `B` is a finite double. -/
theorem C2_no_vertical_overlap (E : Externals) (w : WCV_tvar) (so : Vect3) (vo : Velocity)
    (si : Vect3) (vi : Velocity) (B T : ℚ) (hB : B ≤ DBL_MAX)
    (h : (E.vertical_WCV_interval w.table.ZTHR w.table.TCOA B (horizon B T)
            (so.z - si.z) (vo.z - vi.z)).time_in
        > (E.vertical_WCV_interval w.table.ZTHR w.table.TCOA B (horizon B T)
            (so.z - si.z) (vo.z - vi.z)).time_out) :
    w.WCV_interval E so vo si vi B T = ⟨horizon B T, B⟩
      ∧ (B < T → w.WCV_interval E so vo si vi B T = ⟨T, B⟩)
      ∧ (w.WCV_interval E so vo si vi B T).conflict = false
      ∧ w.conflict E so vo si vi B T = false := by
  have h1 : w.WCV_interval E so vo si vi B T = ⟨horizon B T, B⟩ :=
    WCV_interval_case1 E w so vo si vi B T h
  have h2 : (w.WCV_interval E so vo si vi B T).conflict = false := by
    rw [h1]
    simp [LossData.conflict, le_horizon hB]
  refine ⟨h1, fun hBT => ?_, h2, ?_⟩
  · rw [h1, horizon_of_lt hBT]
  · simpa [WCV_tvar.conflict, WCV_tvar.WCV3D] using h2

/-- Witness for C2: the sample detector, aircraft at the same horizontal position, in level
flight and 100 apart vertically (`ZTHR = 20`), horizon `[0, 100]`: the result is `(100, 0)`. -/
theorem C2_no_vertical_overlap_witness :
    Sample.detector.WCV_interval Sample.externals ⟨0, 0, 100⟩ ⟨⟨7, 0, 0⟩⟩ ⟨0, 0, 0⟩ ⟨⟨7, 0, 0⟩⟩
        0 100 = ⟨100, 0⟩
      ∧ Sample.detector.conflict Sample.externals ⟨0, 0, 100⟩ ⟨⟨7, 0, 0⟩⟩ ⟨0, 0, 0⟩ ⟨⟨7, 0, 0⟩⟩
        0 100 = false := by
  have h := C2_no_vertical_overlap Sample.externals Sample.detector ⟨0, 0, 100⟩ ⟨⟨7, 0, 0⟩⟩
    ⟨0, 0, 0⟩ ⟨⟨7, 0, 0⟩⟩ 0 100 (by norm_num [DBL_MAX])
    (by
      simp [horizon, Sample.detector, Sample.externals, Sample.table,
        Sample.vertical_WCV_interval]
      norm_num)
  exact ⟨h.2.1 (by norm_num), h.2.2.2⟩

/-- C3. Case B of `WCV_interval`: if the vertical closure interval has `vt_in ≤ vt_out` with
`vt_in` almost-equal to `vt_out`, the result is `(vt_in, vt_out)` when `horizontal_WCV` holds for
the relative horizontal state advanced to `vt_in` (`step = s2 + v2·vt_in`, velocity `v2`), and
the sentinel `(T, B)` otherwise; the result does not depend on `horizontal_WCV_interval`. -/
theorem C3_single_instant (E : Externals) (w : WCV_tvar) (so : Vect3) (vo : Velocity)
    (si : Vect3) (vi : Velocity) (B T : ℚ)
    (hle : (w.wcvz E so vo si vi B T).time_in ≤ (w.wcvz E so vo si vi B T).time_out)
    (ha : E.almost_equals (w.wcvz E so vo si vi B T).time_in
      (w.wcvz E so vo si vi B T).time_out = true) :
    (w.horizontal_WCV E
        ((rel_v2 vo vi).ScalAdd (w.wcvz E so vo si vi B T).time_in (rel_s2 so si))
        (rel_v2 vo vi) = true →
      w.WCV_interval E so vo si vi B T
        = ⟨(w.wcvz E so vo si vi B T).time_in, (w.wcvz E so vo si vi B T).time_out⟩)
    ∧ (w.horizontal_WCV E
        ((rel_v2 vo vi).ScalAdd (w.wcvz E so vo si vi B T).time_in (rel_s2 so si))
        (rel_v2 vo vi) = false →
      w.WCV_interval E so vo si vi B T = ⟨horizon B T, B⟩)
    ∧ (∀ hwi : ℚ → Vect2 → Vect2 → LossData,
        WCV_tvar.WCV_interval E ⟨w.table, w.id, w.pvsCheck, w.horizontal_tvar, hwi⟩
            so vo si vi B T
          = w.WCV_interval E so vo si vi B T) := by
  have h2 := WCV_interval_case2 E w so vo si vi B T (not_lt.mpr hle) ha
  refine ⟨fun hh => ?_, fun hh => ?_, fun hwi => ?_⟩
  · rw [h2, WCV_tvar.step, if_pos hh]
  · rw [h2, WCV_tvar.step, hh]
    simp
  · have h2b := WCV_interval_case2 E ⟨w.table, w.id, w.pvsCheck, w.horizontal_tvar, hwi⟩
      so vo si vi B T (not_lt.mpr hle) ha
    rw [h2, h2b]
    rfl

/-- Witness for C3: the sample detector over `[12, 100]`, where the vertical interval is the
single instant `(12, 12)`: at horizontal distance 5 (`DTHR = 10`) the result is `(12, 12)`, at
horizontal distance 50 it is the sentinel `(100, 12)`. -/
theorem C3_single_instant_witness :
    Sample.detector.WCV_interval Sample.externals ⟨3, 4, -100⟩ ⟨⟨0, 0, 10⟩⟩ ⟨0, 0, 0⟩ ⟨⟨0, 0, 0⟩⟩
        12 100 = ⟨12, 12⟩
      ∧ Sample.detector.WCV_interval Sample.externals ⟨30, 40, -100⟩ ⟨⟨0, 0, 10⟩⟩ ⟨0, 0, 0⟩
        ⟨⟨0, 0, 0⟩⟩ 12 100 = ⟨100, 12⟩ := by
  have hz : ∀ x y : ℚ, Sample.detector.wcvz Sample.externals ⟨x, y, -100⟩ ⟨⟨0, 0, 10⟩⟩
      ⟨0, 0, 0⟩ ⟨⟨0, 0, 0⟩⟩ 12 100 = ⟨12, 12⟩ := by
    intro x y
    simp [WCV_tvar.wcvz, horizon, Sample.detector, Sample.externals, Sample.table,
      Sample.vertical_WCV_interval, Sample.Theta_H]
    norm_num
  have h1 := (C3_single_instant Sample.externals Sample.detector ⟨3, 4, -100⟩ ⟨⟨0, 0, 10⟩⟩
    ⟨0, 0, 0⟩ ⟨⟨0, 0, 0⟩⟩ 12 100 (by rw [hz])
    (by rw [hz]; simp [Sample.externals, Sample.almost_equals])).1
  have h2 := (C3_single_instant Sample.externals Sample.detector ⟨30, 40, -100⟩ ⟨⟨0, 0, 10⟩⟩
    ⟨0, 0, 0⟩ ⟨⟨0, 0, 0⟩⟩ 12 100 (by rw [hz])
    (by rw [hz]; simp [Sample.externals, Sample.almost_equals])).2.1
  rw [hz] at h1 h2
  constructor
  · apply h1
    simp [WCV_tvar.horizontal_WCV, Sample.detector, Sample.externals, Sample.table, Sample.norm,
      rel_v2, rel_s2, Vect3.vect2, Vect2.Sub, Vect2.ScalAdd]
    norm_num
  · rw [h2, horizon_of_lt (by norm_num)]
    simp [WCV_tvar.horizontal_WCV, Sample.detector, Sample.externals, Sample.table, Sample.norm,
      Sample.dcpa, Sample.tcpa, rel_v2, rel_s2, Vect3.vect2, Vect2.Sub, Vect2.ScalAdd]
    norm_num

/-- C4. For every `so, vo, si, vi, B, T`, `conflict(so,vo,si,vi,B,T)` is true exactly when the
interval returned by `WCV_interval` (through `WCV3D`) has `time_in < time_out`. -/
theorem C4_conflict_iff_interval (E : Externals) (w : WCV_tvar) (so : Vect3) (vo : Velocity)
    (si : Vect3) (vi : Velocity) (B T : ℚ) :
    (w.conflict E so vo si vi B T = true ↔
        (w.WCV_interval E so vo si vi B T).time_in < (w.WCV_interval E so vo si vi B T).time_out)
      ∧ w.WCV3D E so vo si vi B T = w.WCV_interval E so vo si vi B T := by
  simp [WCV_tvar.conflict, WCV_tvar.WCV3D, LossData.conflict]

/-- C5. Unbounded-horizon policy: when `T ≤ B`, `WCV_interval` returns what it returns with `T`
replaced by `DBL_MAX`; hence any other `T2 ≤ B` gives the same interval, and the no-conflict
sentinel (returned when the vertical interval over `[B, DBL_MAX]` is inverted) is
`(DBL_MAX, B)`. -/
theorem C5_unbounded_horizon (E : Externals) (w : WCV_tvar) (so : Vect3) (vo : Velocity)
    (si : Vect3) (vi : Velocity) (B T : ℚ) (hT : T ≤ B) :
    w.WCV_interval E so vo si vi B T = w.WCV_interval E so vo si vi B DBL_MAX
      ∧ (∀ T2 : ℚ, T2 ≤ B →
          w.WCV_interval E so vo si vi B T2 = w.WCV_interval E so vo si vi B T)
      ∧ ((E.vertical_WCV_interval w.table.ZTHR w.table.TCOA B DBL_MAX
              (so.z - si.z) (vo.z - vi.z)).time_in
            > (E.vertical_WCV_interval w.table.ZTHR w.table.TCOA B DBL_MAX
              (so.z - si.z) (vo.z - vi.z)).time_out →
          w.WCV_interval E so vo si vi B T = ⟨DBL_MAX, B⟩) := by
  have key : ∀ T1 : ℚ, horizon B T1 = DBL_MAX →
      w.WCV_interval E so vo si vi B T1 = w.WCV_interval E so vo si vi B DBL_MAX := by
    intro T1 h1
    have h1a : (if T1 ≤ B then DBL_MAX else T1) = DBL_MAX := h1
    have h2a : (if DBL_MAX ≤ B then DBL_MAX else DBL_MAX) = DBL_MAX := by simp
    simp only [WCV_tvar.WCV_interval, WCV_tvar.WCV_interval_io, h1a, h2a]
  refine ⟨key T (horizon_of_le hT), fun T2 h2 => ?_, fun hv => ?_⟩
  · rw [key T2 (horizon_of_le h2), key T (horizon_of_le hT)]
  · have := WCV_interval_case1 E w so vo si vi B T
      (by simpa [WCV_tvar.wcvz, horizon_of_le hT] using hv)
    rw [this, horizon_of_le hT]

/-- Witness for C5: the sample detector with `B = 50`, `T = 10`: aircraft in level flight 100
apart vertically give the sentinel `(DBL_MAX, 50)`. -/
theorem C5_unbounded_horizon_witness :
    Sample.detector.WCV_interval Sample.externals ⟨0, 0, 100⟩ ⟨⟨7, 0, 0⟩⟩ ⟨0, 0, 0⟩ ⟨⟨7, 0, 0⟩⟩
        50 10 = ⟨DBL_MAX, 50⟩ :=
  (C5_unbounded_horizon Sample.externals Sample.detector ⟨0, 0, 100⟩ ⟨⟨7, 0, 0⟩⟩ ⟨0, 0, 0⟩
    ⟨⟨7, 0, 0⟩⟩ 50 10 (by norm_num)).2.2
    (by
      simp [Sample.detector, Sample.externals, Sample.table, Sample.vertical_WCV_interval]
      norm_num [DBL_MAX])

/-- C9. Symmetry: swapping ownship and intruder does not change the interval returned by
`WCV_interval`, for a vertical model and a horizontal strategy (`horizontal_tvar`,
`horizontal_WCV_interval`, `dcpa`, and the norm) that are invariant under simultaneous negation
of relative position and velocity. -/
theorem C9_symmetry (E : Externals) (w : WCV_tvar) (so : Vect3) (vo : Velocity)
    (si : Vect3) (vi : Velocity) (B T : ℚ)
    (hnorm : ∀ s : Vect2, E.norm s.Neg = E.norm s)
    (hdcpa : ∀ s v : Vect2, E.dcpa s.Neg v.Neg = E.dcpa s v)
    (htvar : ∀ s v : Vect2, w.horizontal_tvar s.Neg v.Neg = w.horizontal_tvar s v)
    (hhwi : ∀ (d : ℚ) (s v : Vect2),
      w.horizontal_WCV_interval d s.Neg v.Neg = w.horizontal_WCV_interval d s v)
    (hvwi : ∀ ZTHR TCOA B1 T1 sz vz : ℚ,
      E.vertical_WCV_interval ZTHR TCOA B1 T1 (-sz) (-vz)
        = E.vertical_WCV_interval ZTHR TCOA B1 T1 sz vz) :
    w.WCV_interval E si vi so vo B T = w.WCV_interval E so vo si vi B T := by
  have hz : w.wcvz E si vi so vo B T = w.wcvz E so vo si vi B T := by
    have e1 : si.z - so.z = -(so.z - si.z) := by ring
    have e2 : vi.z - vo.z = -(vo.z - vi.z) := by ring
    rw [WCV_tvar.wcvz, WCV_tvar.wcvz, e1, e2, hvwi]
  have hstep : w.step E si vi so vo B T = (w.step E so vo si vi B T).Neg := by
    rw [WCV_tvar.step, WCV_tvar.step, hz, rel_s2_swap, rel_v2_swap, ScalAdd_Neg]
  have hH : ∀ s v : Vect2, w.horizontal_WCV E s.Neg v.Neg = w.horizontal_WCV E s v := by
    intro s v
    simp only [WCV_tvar.horizontal_WCV, hnorm, hdcpa, htvar]
  rw [WCV_interval_eq E w si vi so vo B T, WCV_interval_eq E w so vo si vi B T, hz, hstep,
    rel_v2_swap, hH, hhwi]

/-- Witness for C9: the sample detector on the encounter of C1 and on the swapped encounter. -/
theorem C9_symmetry_witness :
    Sample.detector.WCV_interval Sample.externals ⟨0, 0, 0⟩ ⟨⟨0, 0, 0⟩⟩ ⟨3, 4, -100⟩
        ⟨⟨0, 0, 10⟩⟩ 0 100
      = Sample.detector.WCV_interval Sample.externals ⟨3, 4, -100⟩ ⟨⟨0, 0, 10⟩⟩ ⟨0, 0, 0⟩
        ⟨⟨0, 0, 0⟩⟩ 0 100 :=
  C9_symmetry Sample.externals Sample.detector ⟨3, 4, -100⟩ ⟨⟨0, 0, 10⟩⟩ ⟨0, 0, 0⟩ ⟨⟨0, 0, 0⟩⟩
    0 100 Sample.norm_Neg Sample.dcpa_Neg Sample.tcpa_Neg
    (by
      intro d s v
      have hv : ((v.Neg.x = 0 ∧ v.Neg.y = 0) ↔ (v.x = 0 ∧ v.y = 0)) := by simp [Vect2.Neg]
      simp only [Sample.detector, Sample.horizontal_WCV_interval, Sample.norm_Neg, hv])
    (fun ZTHR TCOA B1 T1 sz vz => Sample.vertical_WCV_interval_neg ZTHR TCOA B1 T1 sz vz)

/-- C12. For every 2D relative position `s` and velocity `v`, `horizontal_WCV(s,v)` is true
exactly when `|s| ≤ DTHR`, or `dcpa(s,v) ≤ DTHR` and `0 ≤ horizontal_tvar(s,v) ≤ TTHR`. -/
theorem C12_horizontal_WCV_iff (E : Externals) (w : WCV_tvar) (s v : Vect2) :
    w.horizontal_WCV E s v = true ↔
      E.norm s ≤ w.table.DTHR
        ∨ (E.dcpa s v ≤ w.table.DTHR
          ∧ 0 ≤ w.horizontal_tvar s v ∧ w.horizontal_tvar s v ≤ w.table.TTHR) := by
  unfold WCV_tvar.horizontal_WCV
  by_cases h1 : E.norm s ≤ w.table.DTHR
  · simp [h1]
  · by_cases h2 : E.dcpa s v ≤ w.table.DTHR
    · simp [h1, h2]
    · simp [h1, h2]

/-- C13. For every `so, vo, si, vi`, `violation(so,vo,si,vi)` is `horizontal_WCV` applied to the
current relative horizontal state `(so2 - si2, vo2 - vi2)` conjoined with
`vertical_WCV(ZTHR, TCOA, so.z - si.z, vo.z - vi.z)`; it takes no horizon, and it is unchanged
when `horizontal_WCV_interval`, `vertical_WCV_interval` and `almost_equals` (everything that only
`WCV_interval` uses) are replaced by other functions. -/
theorem C13_violation_instantaneous (E : Externals) (w : WCV_tvar) (so : Vect3) (vo : Velocity)
    (si : Vect3) (vi : Velocity) :
    w.violation E so vo si vi
        = (w.horizontal_WCV E ⟨so.x - si.x, so.y - si.y⟩ ⟨vo.x - vi.x, vo.y - vi.y⟩
            && E.vertical_WCV w.table.ZTHR w.table.TCOA (so.z - si.z) (vo.z - vi.z))
      ∧ (∀ (hwi : ℚ → Vect2 → Vect2 → LossData) (vwi : ℚ → ℚ → ℚ → ℚ → ℚ → ℚ → WCV_Vertical)
          (ae : ℚ → ℚ → Bool),
          WCV_tvar.violation ⟨E.norm, E.dcpa, ae, E.vertical_WCV, vwi⟩
              ⟨w.table, w.id, w.pvsCheck, w.horizontal_tvar, hwi⟩ so vo si vi
            = w.violation E so vo si vi) := by
  constructor
  · rfl
  · intro hwi vwi ae
    rfl

/-- C14. For every input, `conflictDetection` returns a result whose interval is the one
`WCV3D`/`WCV_interval` returns for the same arguments, whose time of closest approach is the
midpoint `(time_in + time_out)/2` of that interval, and whose distance is `cyl_norm`, with
arguments `DTHR` and `ZTHR`, of the relative position `(so + vo·t_tca) - (si + vi·t_tca)`. -/
theorem C14_conflictDetection (E : Externals) (cyl_norm : Vect3 → ℚ → ℚ → ℚ) (w : WCV_tvar)
    (so : Vect3) (vo : Velocity) (si : Vect3) (vi : Velocity) (B T : ℚ) :
    (w.conflictDetection E cyl_norm so vo si vi B T).toLossData = w.WCV3D E so vo si vi B T
      ∧ (w.conflictDetection E cyl_norm so vo si vi B T).toLossData
          = w.WCV_interval E so vo si vi B T
      ∧ (w.conflictDetection E cyl_norm so vo si vi B T).time_crit
          = ((w.WCV_interval E so vo si vi B T).time_in
              + (w.WCV_interval E so vo si vi B T).time_out) / 2
      ∧ (w.conflictDetection E cyl_norm so vo si vi B T).dist_crit
          = cyl_norm
              ⟨(so.x + vo.x * (w.conflictDetection E cyl_norm so vo si vi B T).time_crit)
                - (si.x + vi.x * (w.conflictDetection E cyl_norm so vo si vi B T).time_crit),
               (so.y + vo.y * (w.conflictDetection E cyl_norm so vo si vi B T).time_crit)
                - (si.y + vi.y * (w.conflictDetection E cyl_norm so vo si vi B T).time_crit),
               (so.z + vo.z * (w.conflictDetection E cyl_norm so vo si vi B T).time_crit)
                - (si.z + vi.z * (w.conflictDetection E cyl_norm so vo si vi B T).time_crit)⟩
              w.table.DTHR w.table.ZTHR := by
  refine ⟨rfl, rfl, rfl, rfl⟩

/-- C19. Relative-frame invariance: `WCV_interval` depends on the aircraft states only through
the relative position `so - si` and the relative velocity `vo - vi` (two encounters with the same
differences give the same interval); hence for every displacement `d` and velocity offset `u`,
`WCV_interval(so+d, vo+u, si+d, vi+u, B, T)` is the interval `WCV_interval(so, vo, si, vi, B, T)`. -/
theorem C19_relative_frame (E : Externals) (w : WCV_tvar) (so : Vect3) (vo : Velocity)
    (si : Vect3) (vi : Velocity) (B T : ℚ) :
    (∀ (so1 : Vect3) (vo1 : Velocity) (si1 : Vect3) (vi1 : Velocity),
        so1.Sub si1 = so.Sub si → vo1.toVect3.Sub vi1.toVect3 = vo.toVect3.Sub vi.toVect3 →
        w.WCV_interval E so1 vo1 si1 vi1 B T = w.WCV_interval E so vo si vi B T)
      ∧ (∀ d u : Vect3,
        w.WCV_interval E ⟨so.x + d.x, so.y + d.y, so.z + d.z⟩
            ⟨⟨vo.x + u.x, vo.y + u.y, vo.z + u.z⟩⟩
            ⟨si.x + d.x, si.y + d.y, si.z + d.z⟩
            ⟨⟨vi.x + u.x, vi.y + u.y, vi.z + u.z⟩⟩ B T
          = w.WCV_interval E so vo si vi B T) := by
  have key : ∀ (so1 : Vect3) (vo1 : Velocity) (si1 : Vect3) (vi1 : Velocity),
      so1.Sub si1 = so.Sub si → vo1.toVect3.Sub vi1.toVect3 = vo.toVect3.Sub vi.toVect3 →
      w.WCV_interval E so1 vo1 si1 vi1 B T = w.WCV_interval E so vo si vi B T := by
    intro so1 vo1 si1 vi1 hs hv
    simp only [Vect3.Sub, Vect3.mk.injEq] at hs hv
    obtain ⟨hsx, hsy, hsz⟩ := hs
    obtain ⟨hvx, hvy, hvz⟩ := hv
    have hs2 : rel_s2 so1 si1 = rel_s2 so si := by
      simp only [rel_s2, Vect3.vect2, Vect2.Sub, hsx, hsy]
    have hv2 : rel_v2 vo1 vi1 = rel_v2 vo vi := by
      simp only [rel_v2, Vect3.vect2, Vect2.Sub, hvx, hvy]
    have hz : w.wcvz E so1 vo1 si1 vi1 B T = w.wcvz E so vo si vi B T := by
      simp only [WCV_tvar.wcvz, hsz, hvz]
    have hstep : w.step E so1 vo1 si1 vi1 B T = w.step E so vo si vi B T := by
      simp only [WCV_tvar.step, hz, hs2, hv2]
    rw [WCV_interval_eq E w so1 vo1 si1 vi1 B T, WCV_interval_eq E w so vo si vi B T, hz, hstep,
      hv2]
  refine ⟨key, fun d u => ?_⟩
  apply key
  · simp only [Vect3.Sub, Vect3.mk.injEq]
    refine ⟨by ring, by ring, by ring⟩
  · simp only [Vect3.Sub, Vect3.mk.injEq]
    refine ⟨by ring, by ring, by ring⟩

/-- C20, failing input. With `pvsCheck` on, the sample detector on ownship `(3, 4, -100)` climbing
at 10 towards a stationary intruder at the origin, horizon `[12, 100]`: the vertical interval is
the single instant `(12, 12)`, `horizontal_WCV` holds, the call returns `(12, 12)`, and the line
written by `print_PVS_output` carries the pair `(100, 12)` with the comment "case 2". -/
theorem C20_case2_output_mismatch :
    Sample.detector_pvs.WCV_interval Sample.externals ⟨3, 4, -100⟩ ⟨⟨0, 0, 10⟩⟩ ⟨0, 0, 0⟩
        ⟨⟨0, 0, 0⟩⟩ 12 100 = ⟨12, 12⟩
      ∧ (Sample.detector_pvs.WCV_interval_io Sample.externals ⟨3, 4, -100⟩ ⟨⟨0, 0, 10⟩⟩
          ⟨0, 0, 0⟩ ⟨⟨0, 0, 0⟩⟩ 12 100).2
        = [PVSLine.thresholds 10 20 20 5 12 100,
           PVSLine.vect 3 4 (-100) "so",
           PVSLine.vect 0 0 10 "vo",
           PVSLine.vect 0 0 0 "si",
           PVSLine.vect 0 0 0 "vi",
           PVSLine.timeInOut 100 12 "" "case 2"] := by
  have hz : Sample.vertical_WCV_interval 20 5 12 100 (-100 - 0) (10 - 0) = ⟨12, 12⟩ := by
    simp [Sample.vertical_WCV_interval, Sample.Theta_H]
    norm_num
  have hT : ¬ ((100 : ℚ) ≤ 12) := by norm_num
  have ha : Sample.almost_equals 12 12 = true := by simp [Sample.almost_equals]
  have hh : Sample.detector_pvs.horizontal_WCV Sample.externals
      (Vect2.ScalAdd ((Vect3.vect2 ⟨0, 0, 10⟩).Sub (Vect3.vect2 ⟨0, 0, 0⟩)) 12
        ((Vect3.vect2 ⟨3, 4, -100⟩).Sub (Vect3.vect2 ⟨0, 0, 0⟩)))
      ((Vect3.vect2 ⟨0, 0, 10⟩).Sub (Vect3.vect2 ⟨0, 0, 0⟩)) = true := by
    simp [WCV_tvar.horizontal_WCV, Sample.detector_pvs, Sample.externals, Sample.table,
      Sample.norm, Vect3.vect2, Vect2.Sub, Vect2.ScalAdd]
    norm_num
  constructor
  · simp only [WCV_tvar.WCV_interval, WCV_tvar.WCV_interval_io, if_neg hT]
    simp only [Sample.externals, Sample.detector_pvs, Sample.table] at hh ⊢
    rw [hz]
    simp only [gt_iff_lt, lt_irrefl, if_false, ha, if_true, hh]
  · simp only [WCV_tvar.WCV_interval_io, if_neg hT]
    simp only [Sample.externals, Sample.detector_pvs, Sample.table] at hh ⊢
    rw [hz]
    simp only [gt_iff_lt, lt_irrefl, if_false, ha, if_true, hh]
    simp [WCV_tvar.print_PVS_input, WCV_tvar.print_PVS_output]

/-- The vertical interval of the sample detector for an ownship 100 below the intruder climbing
at 10 (vertical violation during `[5, 12]`), over a horizon `[B, T]` that starts inside
`[5, 12]`. -/
theorem Sample.wcvz_late (x y vx vy B T : ℚ) (h5 : 5 ≤ B) (h12 : B ≤ 12) (hBT : B < T) :
    Sample.detector.wcvz Sample.externals ⟨x, y, -100⟩ ⟨⟨vx, vy, 10⟩⟩ ⟨0, 0, 0⟩ ⟨⟨0, 0, 0⟩⟩ B T
      = ⟨B, min T 12⟩ := by
  have hT : ¬ (T ≤ B) := not_le.mpr hBT
  simp only [WCV_tvar.wcvz, horizon, if_neg hT, Sample.detector, Sample.externals, Sample.table,
    Sample.vertical_WCV_interval, Sample.Theta_H]
  norm_num
  have h1 : ¬ (12 < B) := by linarith
  have h2 : ¬ (T < 5) := by linarith
  simp [h1, h2, h5]

/-- The result of `WCV_interval` over doubles with NaN, as a function of the horizon, the
vertical interval, `step` and `v2`. -/
theorem FP.WCV_interval_nan_eq (E : FP.Externals) (w : FP.WCV_tvar) (so vo si vi : FP.Vect3)
    (B T : Dbl) :
    w.WCV_interval E so vo si vi B T =
      if Dbl.lt (w.wcvz E so vo si vi B T).time_out (w.wcvz E so vo si vi B T).time_in = true then
        ⟨FP.horizon B T, B⟩
      else if E.almost_equals (w.wcvz E so vo si vi B T).time_in
          (w.wcvz E so vo si vi B T).time_out = true then
        if w.horizontal_WCV E (w.step E so vo si vi B T) (FP.rel_v2 vo vi) = true then
          ⟨(w.wcvz E so vo si vi B T).time_in, (w.wcvz E so vo si vi B T).time_out⟩
        else ⟨FP.horizon B T, B⟩
      else
        ⟨(w.horizontal_WCV_interval
            (Dbl.sub (w.wcvz E so vo si vi B T).time_out (w.wcvz E so vo si vi B T).time_in)
            (w.step E so vo si vi B T) (FP.rel_v2 vo vi)).time_in.add
            (w.wcvz E so vo si vi B T).time_in,
         (w.horizontal_WCV_interval
            (Dbl.sub (w.wcvz E so vo si vi B T).time_out (w.wcvz E so vo si vi B T).time_in)
            (w.step E so vo si vi B T) (FP.rel_v2 vo vi)).time_out.add
            (w.wcvz E so vo si vi B T).time_in⟩ := by
  rfl

/-- The assumption of the amended C18 on the vertical model cannot be dropped.  Sample detector
over doubles with NaN, horizon `[0, 100]`, stationary aircraft 5 apart horizontally at the same
altitude, the vertical speed of the ownship being NaN: every test of the sample vertical model
fails, its clipping returns the whole window `(0, 100)`, and `WCV_interval` returns the finite
interval `(0, 100)`, a conflict. -/
theorem nan_vertical_speed_conflict :
    FP.Sample.detector.WCV_interval FP.Sample.externals
        ⟨Dbl.val 3, Dbl.val 4, Dbl.val 0⟩ ⟨Dbl.val 0, Dbl.val 0, Dbl.nan⟩
        ⟨Dbl.val 0, Dbl.val 0, Dbl.val 0⟩ ⟨Dbl.val 0, Dbl.val 0, Dbl.val 0⟩
        (Dbl.val 0) (Dbl.val 100) = ⟨Dbl.val 0, Dbl.val 100⟩
      ∧ FP.LossData.conflict ⟨Dbl.val 0, Dbl.val 100⟩ = true := by
  have hT : FP.horizon (Dbl.val 0) (Dbl.val 100) = Dbl.val 100 := by
    simp [FP.horizon, Dbl.le]
  have hw : FP.Sample.detector.wcvz FP.Sample.externals
      ⟨Dbl.val 3, Dbl.val 4, Dbl.val 0⟩ ⟨Dbl.val 0, Dbl.val 0, Dbl.nan⟩
      ⟨Dbl.val 0, Dbl.val 0, Dbl.val 0⟩ ⟨Dbl.val 0, Dbl.val 0, Dbl.val 0⟩
      (Dbl.val 0) (Dbl.val 100) = ⟨Dbl.val 0, Dbl.val 100⟩ := by
    simp [FP.WCV_tvar.wcvz, hT, FP.Sample.detector, FP.Sample.externals, Dbl.sub,
      FP.Sample.vertical_WCV_interval, FP.Sample.Theta_H, Dbl.max, Dbl.min, Dbl.lt, Dbl.abs,
      Dbl.mul, Dbl.div]
  have hA : ¬ (Dbl.lt (Dbl.val 100) (Dbl.val 0) = true) := by
    simp [Dbl.lt]
  have hB : ¬ (FP.Sample.externals.almost_equals (Dbl.val 0) (Dbl.val 100) = true) := by
    simp [FP.Sample.externals, FP.Sample.almost_equals, Sample.almost_equals]
    norm_num [abs_of_nonneg]
  have hn : Sample.norm ⟨3, 4⟩ = 5 := by
    simp [Sample.norm]
    norm_num
  have hstep : FP.Sample.detector.step FP.Sample.externals
      ⟨Dbl.val 3, Dbl.val 4, Dbl.val 0⟩ ⟨Dbl.val 0, Dbl.val 0, Dbl.nan⟩
      ⟨Dbl.val 0, Dbl.val 0, Dbl.val 0⟩ ⟨Dbl.val 0, Dbl.val 0, Dbl.val 0⟩
      (Dbl.val 0) (Dbl.val 100) = ⟨Dbl.val 3, Dbl.val 4⟩ := by
    simp [FP.WCV_tvar.step, hw, FP.rel_v2, FP.rel_s2, FP.Vect2.Sub, FP.Vect3.vect2,
      FP.Vect2.ScalAdd, Dbl.sub, Dbl.add, Dbl.mul]
  have hv2 : FP.rel_v2 ⟨Dbl.val 0, Dbl.val 0, Dbl.nan⟩ ⟨Dbl.val 0, Dbl.val 0, Dbl.val 0⟩
      = ⟨Dbl.val 0, Dbl.val 0⟩ := by
    simp [FP.rel_v2, FP.Vect2.Sub, FP.Vect3.vect2, Dbl.sub]
  have hh : FP.Sample.detector.horizontal_WCV_interval (Dbl.val 100) ⟨Dbl.val 3, Dbl.val 4⟩
      ⟨Dbl.val 0, Dbl.val 0⟩ = ⟨Dbl.val 0, Dbl.val 100⟩ := by
    simp [FP.Sample.detector, FP.Sample.horizontal_WCV_interval, FP.Sample.norm,
      FP.Vect2.toRat, hn, Dbl.le]
    norm_num
  constructor
  · rw [FP.WCV_interval_nan_eq, hw, if_neg hA, if_neg hB, hstep, hv2]
    have hd : Dbl.sub (Dbl.val 100) (Dbl.val 0) = Dbl.val 100 := by
      simp [Dbl.sub]
    simp only [hd, hh]
    simp [Dbl.add]
  · simp [FP.LossData.conflict, Dbl.lt]

/-- The diagnostic output of `WCV_interval` when `pvsCheck` is on: the input lines followed by
one line which, in cases 1 and 3, carries the returned pair, and in case 2 carries the sentinel
`(T, B)` whatever is returned. -/
theorem WCV_interval_io_output (E : Externals) (w : WCV_tvar) (so : Vect3) (vo : Velocity)
    (si : Vect3) (vi : Velocity) (B T : ℚ) (hp : w.pvsCheck = true) :
    (w.WCV_interval_io E so vo si vi B T).2
      = w.print_PVS_input so vo si vi B (horizon B T)
        ++ [if (w.wcvz E so vo si vi B T).time_out < (w.wcvz E so vo si vi B T).time_in then
              PVSLine.timeInOut (w.WCV_interval E so vo si vi B T).time_in
                (w.WCV_interval E so vo si vi B T).time_out w.id "case 1"
            else if E.almost_equals (w.wcvz E so vo si vi B T).time_in
                (w.wcvz E so vo si vi B T).time_out = true then
              PVSLine.timeInOut (horizon B T) B w.id "case 2"
            else
              PVSLine.timeInOut (w.WCV_interval E so vo si vi B T).time_in
                (w.WCV_interval E so vo si vi B T).time_out w.id "case 3"] := by
  by_cases h : (w.wcvz E so vo si vi B T).time_out < (w.wcvz E so vo si vi B T).time_in
  · rw [if_pos h, WCV_interval_case1 E w so vo si vi B T h]
    simp only [WCV_tvar.wcvz, horizon] at h
    simp only [WCV_tvar.WCV_interval_io, horizon, gt_iff_lt, if_pos h,
      WCV_tvar.print_PVS_output, hp, if_true]
  · rw [if_neg h]
    cases ha : E.almost_equals (w.wcvz E so vo si vi B T).time_in
        (w.wcvz E so vo si vi B T).time_out
    · rw [WCV_interval_case3 E w so vo si vi B T h ha]
      simp only [WCV_tvar.step, WCV_tvar.wcvz, horizon, rel_s2, rel_v2] at h ha ⊢
      simp only [WCV_tvar.WCV_interval_io, gt_iff_lt, if_neg h, ha,
        WCV_tvar.print_PVS_output, hp, if_true]
      simp
    · simp only [WCV_tvar.step, WCV_tvar.wcvz, horizon, rel_s2, rel_v2] at h ha ⊢
      simp only [WCV_tvar.WCV_interval_io, gt_iff_lt, if_neg h, ha,
        WCV_tvar.print_PVS_output, hp, if_true]
      split_ifs <;> rfl

/-- C21, failing input. `Hat` and `mkGs` never reach a division with divisor zero (their checked
versions always return the value of the unchecked ones), but `genVel` divides `1` by `dt` with no
test: for `dt = 0` the division is reached with divisor zero, for every `p1`, `p2`; for
`dt ≠ 0` it returns the value of `genVel`. -/
theorem C21_genVel_division_unguarded :
    (∀ (M : MathFns) (v : Velocity), v.Hat_div M = DivCheck.value (v.Hat M))
      ∧ (∀ (M : MathFns) (v : Velocity) (gs_d : ℚ),
          v.mkGs_div M gs_d = DivCheck.value (v.mkGs M gs_d))
      ∧ (∀ p1 p2 : Vect3, Velocity.genVel_div p1 p2 0 = DivCheck.divisionByZero)
      ∧ Velocity.genVel_div ⟨0, 0, 0⟩ ⟨1, 2, 3⟩ 0 = DivCheck.divisionByZero
      ∧ (∀ (p1 p2 : Vect3) (dt : ℚ), dt ≠ 0 →
          Velocity.genVel_div p1 p2 dt = DivCheck.value (Velocity.genVel p1 p2 dt)) := by
  refine ⟨?_, ?_, ?_, ?_, ?_⟩
  · intro M v
    unfold Velocity.Hat_div Velocity.Hat
    by_cases hn : M.norm3 v.toVect3 = 0
    · simp [hn]
    · simp [hn, DivCheck.div]
  · intro M v gs_d
    unfold Velocity.mkGs_div Velocity.mkGs
    by_cases hg : gs_d < 0
    · simp [hg]
    · by_cases hp : v.gs M > 0
      · have hne : v.gs M ≠ 0 := ne_of_gt hp
        simp [hg, hp, hne, DivCheck.div]
      · simp [hg, hp]
  · intro p1 p2
    simp [Velocity.genVel_div, DivCheck.div]
  · simp [Velocity.genVel_div, DivCheck.div]
  · intro p1 p2 dt hdt
    simp [Velocity.genVel_div, Velocity.genVel, DivCheck.div, hdt]

/-- C22. In the degenerate case of `WCV_interval` (vertical interval `vt_in ≤ vt_out`,
almost-equal) where `horizontal_WCV` holds at the instant, the result is `(vt_in, vt_out)` and
its conflict status is `vt_in < vt_out`: when `vt_in = vt_out` the result is the zero-length
interval `(vt_in, vt_in)`, which `conflict` reports as no conflict; when `vt_in < vt_out` the
result is reported as a conflict. -/
theorem C22_degenerate_conflict_status (E : Externals) (w : WCV_tvar) (so : Vect3)
    (vo : Velocity) (si : Vect3) (vi : Velocity) (B T : ℚ)
    (hle : (w.wcvz E so vo si vi B T).time_in ≤ (w.wcvz E so vo si vi B T).time_out)
    (ha : E.almost_equals (w.wcvz E so vo si vi B T).time_in
      (w.wcvz E so vo si vi B T).time_out = true)
    (hh : w.horizontal_WCV E (w.step E so vo si vi B T) (rel_v2 vo vi) = true) :
    w.WCV_interval E so vo si vi B T
        = ⟨(w.wcvz E so vo si vi B T).time_in, (w.wcvz E so vo si vi B T).time_out⟩
      ∧ w.conflict E so vo si vi B T
        = decide ((w.wcvz E so vo si vi B T).time_in < (w.wcvz E so vo si vi B T).time_out)
      ∧ ((w.wcvz E so vo si vi B T).time_in = (w.wcvz E so vo si vi B T).time_out →
          w.WCV_interval E so vo si vi B T
              = ⟨(w.wcvz E so vo si vi B T).time_in, (w.wcvz E so vo si vi B T).time_in⟩
            ∧ w.conflict E so vo si vi B T = false)
      ∧ ((w.wcvz E so vo si vi B T).time_in < (w.wcvz E so vo si vi B T).time_out →
          w.conflict E so vo si vi B T = true) := by
  have hr : w.WCV_interval E so vo si vi B T
      = ⟨(w.wcvz E so vo si vi B T).time_in, (w.wcvz E so vo si vi B T).time_out⟩ := by
    rw [WCV_interval_case2 E w so vo si vi B T (not_lt.mpr hle) ha, if_pos hh]
  have hc : w.conflict E so vo si vi B T
      = decide ((w.wcvz E so vo si vi B T).time_in < (w.wcvz E so vo si vi B T).time_out) := by
    simp only [WCV_tvar.conflict, WCV_tvar.WCV3D, hr, LossData.conflict]
  refine ⟨hr, hc, fun heq => ⟨?_, ?_⟩, fun hlt => ?_⟩
  · rw [hr, ← heq]
  · rw [hc, heq]
    simp
  · rw [hc]
    simp [hlt]

/-- Witness for C22: the sample detector, ownship at `(3, 4, -100)` climbing at 10 towards a
stationary intruder at the origin (horizontal distance 5, `DTHR = 10`).  Over `[12, 100]` the
vertical interval is `(12, 12)` and `conflict` is false; over `[12 - 2^(-46), 100]` the vertical
interval `(12 - 2^(-46), 12)` is almost-equal and `conflict` is true. -/
theorem C22_degenerate_conflict_status_witness :
    Sample.detector.conflict Sample.externals ⟨3, 4, -100⟩ ⟨⟨0, 0, 10⟩⟩ ⟨0, 0, 0⟩ ⟨⟨0, 0, 0⟩⟩
        12 100 = false
      ∧ Sample.detector.conflict Sample.externals ⟨3, 4, -100⟩ ⟨⟨0, 0, 10⟩⟩ ⟨0, 0, 0⟩
        ⟨⟨0, 0, 0⟩⟩ (12 - 1 / 2 ^ 46) 100 = true := by
  have hv : rel_v2 ⟨⟨0, 0, 10⟩⟩ ⟨⟨0, 0, 0⟩⟩ = ⟨0, 0⟩ := by
    simp [rel_v2, Vect3.vect2, Vect2.Sub]
  have hH : ∀ B : ℚ, Sample.detector.horizontal_WCV Sample.externals
      (Sample.detector.step Sample.externals ⟨3, 4, -100⟩ ⟨⟨0, 0, 10⟩⟩ ⟨0, 0, 0⟩ ⟨⟨0, 0, 0⟩⟩ B 100)
      (rel_v2 ⟨⟨0, 0, 10⟩⟩ ⟨⟨0, 0, 0⟩⟩) = true := by
    intro B
    rw [WCV_tvar.step, hv, ScalAdd_zero_vel]
    simp [WCV_tvar.horizontal_WCV, Sample.detector, Sample.externals, Sample.table, Sample.norm,
      rel_s2, Vect3.vect2, Vect2.Sub]
    norm_num
  have hz1 := Sample.wcvz_late 3 4 0 0 12 100 (by norm_num) (by norm_num) (by norm_num)
  rw [min_eq_right (by norm_num : (12 : ℚ) ≤ 100)] at hz1
  have hz2 := Sample.wcvz_late 3 4 0 0 (12 - 1 / 2 ^ 46) 100 (by norm_num) (by norm_num)
    (by norm_num)
  rw [min_eq_right (by norm_num : (12 : ℚ) ≤ 100)] at hz2
  have h1 := C22_degenerate_conflict_status Sample.externals Sample.detector ⟨3, 4, -100⟩
    ⟨⟨0, 0, 10⟩⟩ ⟨0, 0, 0⟩ ⟨⟨0, 0, 0⟩⟩ 12 100 (by rw [hz1])
    (by rw [hz1]; simp [Sample.externals, Sample.almost_equals]) (hH 12)
  have h2 := C22_degenerate_conflict_status Sample.externals Sample.detector ⟨3, 4, -100⟩
    ⟨⟨0, 0, 10⟩⟩ ⟨0, 0, 0⟩ ⟨⟨0, 0, 0⟩⟩ (12 - 1 / 2 ^ 46) 100 (by rw [hz2]; norm_num)
    (by rw [hz2]; simp [Sample.externals, Sample.almost_equals]; norm_num [abs_of_nonneg])
    (hH _)
  exact ⟨(h1.2.2.1 (by rw [hz1])).2, h2.2.2.2 (by rw [hz2]; norm_num)⟩

/-! ## Double arithmetic with rounding: the claims on computed values -/

/-- The nearest integer is within one half of the value. -/
theorem roundHalfEven_err (q : ℚ) : |(roundHalfEven q : ℚ) - q| ≤ 1 / 2 := by
  have h1 : (⌊q⌋ : ℚ) ≤ q := Int.floor_le q
  have h2 : q < ⌊q⌋ + 1 := Int.lt_floor_add_one q
  unfold roundHalfEven
  split_ifs with a b c
  · rw [abs_le]; constructor <;> linarith
  · rw [abs_le]; push_cast; constructor <;> linarith
  · rw [abs_le]; constructor <;> linarith
  · rw [abs_le]; push_cast; constructor <;> linarith

/-- An integer within less than one half of the value is the nearest integer. -/
theorem roundHalfEven_near (q : ℚ) (m : ℤ) (h : |q - m| < 1 / 2) : roundHalfEven q = m := by
  have he := roundHalfEven_err q
  rw [abs_lt] at h
  rw [abs_le] at he
  have h3 : |((roundHalfEven q - m : ℤ) : ℚ)| < 1 := by
    rw [abs_lt]; push_cast; constructor <;> linarith
  have h4 : |roundHalfEven q - m| < 1 := by exact_mod_cast h3
  have := Int.abs_lt_one_iff.mp h4
  omega

/-- An integer is its own nearest integer. -/
theorem roundHalfEven_intCast (m : ℤ) : roundHalfEven (m : ℚ) = m :=
  roundHalfEven_near _ m (by simp)

/-- The nearest integer is monotone in the value. -/
theorem roundHalfEven_mono {q r : ℚ} (h : q ≤ r) : roundHalfEven q ≤ roundHalfEven r := by
  by_contra hc
  push_neg at hc
  have h1 := roundHalfEven_err q
  have h2 := roundHalfEven_err r
  rw [abs_le] at h1 h2
  have h3 : (roundHalfEven r : ℚ) + 1 ≤ roundHalfEven q := by exact_mod_cast hc
  have hqr : q = r := by linarith
  rw [hqr] at hc
  exact lt_irrefl _ hc

/-- The value scaled by its exponent lies in `[2^52, 2^53)`. -/
theorem scaled_bounds (x : ℚ) (hx : x ≠ 0) :
    (2 : ℚ) ^ (52 : ℕ) ≤ |x| / 2 ^ (Int.log 2 |x| - 52)
      ∧ |x| / 2 ^ (Int.log 2 |x| - 52) < 2 ^ (53 : ℕ) := by
  have hpos : 0 < |x| := abs_pos.mpr hx
  have h1 := Int.zpow_log_le_self (b := 2) (by norm_num) hpos
  have h2 := Int.lt_zpow_succ_log_self (b := 2) (by norm_num) |x|
  have hp : (0 : ℚ) < 2 ^ (Int.log 2 |x| - 52) := by positivity
  have e1 : ((2 : ℕ) : ℚ) ^ Int.log 2 |x| = 2 ^ (52 : ℕ) * 2 ^ (Int.log 2 |x| - 52) := by
    rw [← zpow_natCast, ← zpow_add₀ (by norm_num)]; norm_num
  have e2 : ((2 : ℕ) : ℚ) ^ (Int.log 2 |x| + 1) = 2 ^ (53 : ℕ) * 2 ^ (Int.log 2 |x| - 52) := by
    rw [← zpow_natCast, ← zpow_add₀ (by norm_num)]
    norm_num
    ring
  rw [e1] at h1
  rw [e2] at h2
  constructor
  · rw [le_div_iff₀ hp]; exact h1
  · rw [div_lt_iff₀ hp]; exact h2

/-- The binary exponent of a value of `[2^s, 2^(s+1))` is `s`. -/
theorem log_eq_of_bounds (x : ℚ) (s : ℤ) (hlo : (2 : ℚ) ^ s ≤ x) (hhi : x < 2 ^ (s + 1)) :
    Int.log 2 x = s := by
  have hx : 0 < x := lt_of_lt_of_le (by positivity) hlo
  have a : s ≤ Int.log 2 x := by
    rw [← Int.zpow_le_iff_le_log (by norm_num) hx]; exact_mod_cast hlo
  have b : Int.log 2 x < s + 1 := by
    rw [← Int.lt_zpow_iff_log_lt (by norm_num) hx]; exact_mod_cast hhi
  omega

/-- Rounding to 53 bits commutes with negation. -/
theorem round53_neg (x : ℚ) : round53 (-x) = -round53 x := by
  unfold round53
  by_cases hx : x = 0
  · simp [hx]
  · have hnx : -x ≠ 0 := neg_ne_zero.mpr hx
    rw [if_neg hx, if_neg hnx, abs_neg]
    rcases lt_or_gt_of_ne hx with h | h
    · have h1 : (0 : ℚ) < -x := by linarith
      have h2 : ¬ (0 : ℚ) < x := by linarith
      rw [if_pos h1, if_neg h2]
      ring
    · have h1 : ¬ (0 : ℚ) < -x := by linarith
      rw [if_neg h1, if_pos h]
      ring

/-- Rounding to 53 bits of a positive value. -/
theorem round53_pos_eq (x : ℚ) (hx : 0 < x) :
    round53 x = (roundHalfEven (x / 2 ^ (Int.log 2 x - 52)) : ℚ) * 2 ^ (Int.log 2 x - 52) := by
  unfold round53
  rw [if_neg (ne_of_gt hx), if_pos hx, abs_of_pos hx, one_mul]

/-- Relative accuracy of rounding to 53 bits. -/
theorem round53_err (x : ℚ) : |round53 x - x| ≤ |x| / 2 ^ (53 : ℕ) := by
  wlog hx : 0 < x generalizing x
  · rcases eq_or_lt_of_le (not_lt.mp hx) with h | h
    · simp [h, round53]
    · have := this (-x) (by linarith)
      rw [round53_neg, abs_neg] at this
      have e : -round53 x - -x = -(round53 x - x) := by ring
      rwa [e, abs_neg] at this
  have hb := scaled_bounds x (ne_of_gt hx)
  rw [abs_of_pos hx] at hb ⊢
  have hp : (0 : ℚ) < 2 ^ (Int.log 2 x - 52) := by positivity
  have he := roundHalfEven_err (x / 2 ^ (Int.log 2 x - 52))
  rw [round53_pos_eq x hx]
  have e : (roundHalfEven (x / 2 ^ (Int.log 2 x - 52)) : ℚ) * 2 ^ (Int.log 2 x - 52) - x
      = ((roundHalfEven (x / 2 ^ (Int.log 2 x - 52)) : ℚ) - x / 2 ^ (Int.log 2 x - 52))
        * 2 ^ (Int.log 2 x - 52) := by
    field_simp
  rw [e, abs_mul, abs_of_pos hp]
  have h52 : (2 : ℚ) ^ (52 : ℕ) * 2 ^ (Int.log 2 x - 52) ≤ x := by
    have := hb.1
    rwa [le_div_iff₀ hp] at this
  calc |(roundHalfEven (x / 2 ^ (Int.log 2 x - 52)) : ℚ) - x / 2 ^ (Int.log 2 x - 52)|
        * 2 ^ (Int.log 2 x - 52)
      ≤ 1 / 2 * 2 ^ (Int.log 2 x - 52) := by
        exact mul_le_mul_of_nonneg_right he (le_of_lt hp)
    _ = (2 ^ (52 : ℕ) * 2 ^ (Int.log 2 x - 52)) / 2 ^ (53 : ℕ) := by
        norm_num
        ring
    _ ≤ x / 2 ^ (53 : ℕ) := by
        exact div_le_div_of_nonneg_right h52 (by positivity)

/-- Evaluation of the rounding of a positive value from its exponent and mantissa. -/
theorem round53_eval (x : ℚ) (e m : ℤ) (hlo : (2 : ℚ) ^ (e + 52) ≤ x) (hhi : x < 2 ^ (e + 53))
    (hm : roundHalfEven (x / 2 ^ e) = m) : round53 x = m * 2 ^ e := by
  have hx : 0 < x := lt_of_lt_of_le (by positivity) hlo
  have hl : Int.log 2 x = e + 52 := log_eq_of_bounds x (e + 52) hlo (by
    have : e + 52 + 1 = e + 53 := by ring
    rw [this]; exact hhi)
  rw [round53_pos_eq x hx, hl]
  have : e + 52 - 52 = e := by ring
  rw [this, hm]

/-- Doubles are fixed by the rounding. -/
theorem round53_dyadic (m k : ℤ) (hm : |m| < 2 ^ (53 : ℕ)) :
    round53 ((m : ℚ) * 2 ^ k) = (m : ℚ) * 2 ^ k := by
  wlog hpos : 0 < m generalizing m
  · rcases eq_or_lt_of_le (not_lt.mp hpos) with h | h
    · simp [h, round53]
    · have := this (-m) (by rwa [abs_neg]) (by linarith)
      push_cast at this
      rw [neg_mul, round53_neg] at this
      linarith
  have hmq : (0 : ℚ) < m := by exact_mod_cast hpos
  have hx : 0 < (m : ℚ) * 2 ^ k := by positivity
  have hlt : (m : ℚ) < 2 ^ (53 : ℕ) := by
    have : m < 2 ^ (53 : ℕ) := by rwa [abs_of_pos hpos] at hm
    exact_mod_cast this
  have hb := scaled_bounds ((m : ℚ) * 2 ^ k) (ne_of_gt hx)
  rw [abs_of_pos hx] at hb
  -- the exponent of the grid is at most k
  have hle : Int.log 2 ((m : ℚ) * 2 ^ k) - 52 ≤ k := by
    have h1 : (m : ℚ) * 2 ^ k < 2 ^ (k + 53) := by
      rw [zpow_add₀ (by norm_num : (2 : ℚ) ≠ 0), mul_comm]
      exact mul_lt_mul_of_pos_left (by exact_mod_cast hlt) (by positivity)
    have h2 : Int.log 2 ((m : ℚ) * 2 ^ k) < k + 53 := by
      rw [← Int.lt_zpow_iff_log_lt (by norm_num) hx]; exact_mod_cast h1
    omega
  obtain ⟨n, hn⟩ := Int.eq_ofNat_of_zero_le (sub_nonneg.mpr hle)
  have hq : (m : ℚ) * 2 ^ k / 2 ^ (Int.log 2 ((m : ℚ) * 2 ^ k) - 52) = ((m * 2 ^ n : ℤ) : ℚ) := by
    have hk : k = (Int.log 2 ((m : ℚ) * 2 ^ k) - 52) + n := by omega
    have hp : (2 : ℚ) ^ (Int.log 2 ((m : ℚ) * 2 ^ k) - 52) ≠ 0 := by positivity
    rw [div_eq_iff hp]
    push_cast
    nth_rewrite 1 [hk]
    rw [zpow_add₀ (by norm_num : (2 : ℚ) ≠ 0), zpow_natCast]
    ring
  rw [round53_pos_eq _ hx, hq, roundHalfEven_intCast, ← hq]
  field_simp


/-- Zero is rounded to zero. -/
theorem round53_zero : round53 0 = 0 := by
  simp [round53]

/-- The rounding of a positive value is at least the power of two below the value. -/
theorem round53_pos_ge (x : ℚ) (hx : 0 < x) : (2 : ℚ) ^ Int.log 2 x ≤ round53 x := by
  have hb := scaled_bounds x (ne_of_gt hx)
  rw [abs_of_pos hx] at hb
  have hm : ((2 : ℤ) ^ (52 : ℕ)) ≤ roundHalfEven (x / 2 ^ (Int.log 2 x - 52)) := by
    have := roundHalfEven_mono hb.1
    have e : ((2 : ℚ) ^ (52 : ℕ)) = (((2 : ℤ) ^ (52 : ℕ) : ℤ) : ℚ) := by norm_num
    rw [e, roundHalfEven_intCast] at this
    exact this
  have hmq : ((2 : ℚ) ^ (52 : ℕ)) ≤ (roundHalfEven (x / 2 ^ (Int.log 2 x - 52)) : ℚ) := by
    exact_mod_cast hm
  rw [round53_pos_eq x hx]
  have hp : (0 : ℚ) < 2 ^ (Int.log 2 x - 52) := by positivity
  have e1 : (2 : ℚ) ^ Int.log 2 x = 2 ^ (52 : ℕ) * 2 ^ (Int.log 2 x - 52) := by
    rw [← zpow_natCast, ← zpow_add₀ (by norm_num)]; norm_num
  rw [e1]
  exact mul_le_mul_of_nonneg_right hmq (le_of_lt hp)

/-- The rounding of a positive value is at most the power of two above the value. -/
theorem round53_pos_le (x : ℚ) (hx : 0 < x) : round53 x ≤ (2 : ℚ) ^ (Int.log 2 x + 1) := by
  have hb := scaled_bounds x (ne_of_gt hx)
  rw [abs_of_pos hx] at hb
  have hm : roundHalfEven (x / 2 ^ (Int.log 2 x - 52)) ≤ ((2 : ℤ) ^ (53 : ℕ)) := by
    have := roundHalfEven_mono (le_of_lt hb.2)
    have e : ((2 : ℚ) ^ (53 : ℕ)) = (((2 : ℤ) ^ (53 : ℕ) : ℤ) : ℚ) := by norm_num
    rw [e, roundHalfEven_intCast] at this
    exact this
  have hmq : (roundHalfEven (x / 2 ^ (Int.log 2 x - 52)) : ℚ) ≤ ((2 : ℚ) ^ (53 : ℕ)) := by
    exact_mod_cast hm
  rw [round53_pos_eq x hx]
  have hp : (0 : ℚ) < 2 ^ (Int.log 2 x - 52) := by positivity
  have e1 : (2 : ℚ) ^ (Int.log 2 x + 1) = 2 ^ (53 : ℕ) * 2 ^ (Int.log 2 x - 52) := by
    rw [← zpow_natCast, ← zpow_add₀ (by norm_num)]
    norm_num
    ring
  rw [e1]
  exact mul_le_mul_of_nonneg_right hmq (le_of_lt hp)

/-- The rounding of a positive value is positive. -/
theorem round53_pos (x : ℚ) (hx : 0 < x) : 0 < round53 x :=
  lt_of_lt_of_le (by positivity) (round53_pos_ge x hx)

/-- The rounding of a value that is not negative is not negative. -/
theorem round53_nonneg (x : ℚ) (hx : 0 ≤ x) : 0 ≤ round53 x := by
  rcases eq_or_lt_of_le hx with h | h
  · rw [← h, round53_zero]
  · exact le_of_lt (round53_pos x h)

/-- The rounding of a value that is not positive is not positive. -/
theorem round53_nonpos (x : ℚ) (hx : x ≤ 0) : round53 x ≤ 0 := by
  have := round53_nonneg (-x) (by linarith)
  rw [round53_neg] at this
  linarith

/-- Upper bound of the rounding of a value that is not negative. -/
theorem round53_le_mul (x : ℚ) (hx : 0 ≤ x) : round53 x ≤ x * (1 + 1 / 2 ^ (53 : ℕ)) := by
  have := round53_err x
  rw [abs_of_nonneg hx, abs_le] at this
  have e : x * (1 + 1 / 2 ^ (53 : ℕ)) = x + x / 2 ^ (53 : ℕ) := by ring
  rw [e]
  linarith

/-- Lower bound of the rounding of a value that is not negative. -/
theorem round53_ge_mul (x : ℚ) (hx : 0 ≤ x) : x * (1 - 1 / 2 ^ (53 : ℕ)) ≤ round53 x := by
  have := round53_err x
  rw [abs_of_nonneg hx, abs_le] at this
  have e : x * (1 - 1 / 2 ^ (53 : ℕ)) = x - x / 2 ^ (53 : ℕ) := by ring
  rw [e]
  linarith

/-- The square of a rounded value, between the bounds of the relative accuracy. -/
theorem round53_sq_bounds (x : ℚ) :
    (1 - 1 / 2 ^ (53 : ℕ)) ^ 2 * x ^ 2 ≤ round53 x ^ 2
      ∧ round53 x ^ 2 ≤ (1 + 1 / 2 ^ (53 : ℕ)) ^ 2 * x ^ 2 := by
  wlog hx : 0 ≤ x generalizing x
  · have := this (-x) (by linarith)
    rw [round53_neg] at this
    simpa using this
  have h0 := round53_nonneg x hx
  have h1 := round53_le_mul x hx
  have h2 := round53_ge_mul x hx
  have hu : (0 : ℚ) ≤ 1 - 1 / 2 ^ (53 : ℕ) := by norm_num
  have h3 : 0 ≤ x * (1 - 1 / 2 ^ (53 : ℕ)) := mul_nonneg hx hu
  constructor
  · have := pow_le_pow_left₀ h3 h2 2
    calc (1 - 1 / 2 ^ (53 : ℕ)) ^ 2 * x ^ 2 = (x * (1 - 1 / 2 ^ (53 : ℕ))) ^ 2 := by ring
      _ ≤ round53 x ^ 2 := this
  · have := pow_le_pow_left₀ h0 h1 2
    calc round53 x ^ 2 ≤ (x * (1 + 1 / 2 ^ (53 : ℕ))) ^ 2 := this
      _ = (1 + 1 / 2 ^ (53 : ℕ)) ^ 2 * x ^ 2 := by ring

/-- The constant `DBL_MIN` is positive. -/
theorem DBL_MIN_pos : 0 < DBL_MIN := by
  unfold DBL_MIN
  positivity

/-- The constant `DBL_MAX` is at least `2^1023`. -/
theorem DBL_MAX_ge : (2 : ℚ) ^ (1023 : ℤ) ≤ DBL_MAX := by
  norm_num [DBL_MAX]

/-- A double returned by an operation is the rounding of the exact result. -/
theorem Fl.rnd_eq_some (x r : ℚ) (h : Fl.rnd x = some r) : r = round53 x := by
  unfold Fl.rnd at h
  split_ifs at h with h0 h1
  · rw [h0, round53_zero]
    exact (Option.some.inj h).symm
  · exact (Option.some.inj h).symm

/-- An exact result zero is returned as zero. -/
theorem Fl.rnd_zero : Fl.rnd 0 = some 0 := by
  simp [Fl.rnd]

/-- The operation has a value when the exact result is in range. -/
theorem Fl.rnd_of_round53 (x v : ℚ) (hv : round53 x = v) (hmin : DBL_MIN ≤ |x|)
    (hmax : |v| ≤ DBL_MAX) : Fl.rnd x = some v := by
  have hx : x ≠ 0 := by
    intro h
    rw [h, abs_zero] at hmin
    exact absurd hmin (not_le.mpr DBL_MIN_pos)
  unfold Fl.rnd
  rw [if_neg hx, hv, if_pos ⟨hmin, hmax⟩]

/-- Evaluation of an operation with a positive exact result from the exponent and the
significand of the result. -/
theorem Fl.rnd_eval (x : ℚ) (e m : ℤ) (hlo : (2 : ℚ) ^ (e + 52) ≤ x) (hhi : x < 2 ^ (e + 53))
    (hm : roundHalfEven (x / 2 ^ e) = m) (he1 : -1074 ≤ e) (he2 : e ≤ 970) :
    Fl.rnd x = some ((m : ℚ) * 2 ^ e) := by
  have hx : 0 < x := lt_of_lt_of_le (by positivity) hlo
  have hv := round53_eval x e m hlo hhi hm
  have hl : Int.log 2 x = e + 52 := log_eq_of_bounds x (e + 52) hlo (by
    have : e + 52 + 1 = e + 53 := by ring
    rw [this]; exact hhi)
  apply Fl.rnd_of_round53 x _ hv
  · rw [abs_of_pos hx]
    refine le_trans ?_ hlo
    unfold DBL_MIN
    exact zpow_le_zpow_right₀ (by norm_num) (by omega)
  · have h1 := round53_pos_le x hx
    have h0 := round53_pos x hx
    rw [hv] at h1 h0
    rw [abs_of_pos h0]
    refine le_trans h1 (le_trans ?_ DBL_MAX_ge)
    rw [hl]
    exact zpow_le_zpow_right₀ (by norm_num) (by omega)

/-- A double in the range of the normal doubles is returned unchanged. -/
theorem Fl.rnd_dyadic (m k : ℤ) (hm : |m| < 2 ^ (53 : ℕ)) (hk1 : -1022 ≤ k) (hk2 : k ≤ 970) :
    Fl.rnd ((m : ℚ) * 2 ^ k) = some ((m : ℚ) * 2 ^ k) := by
  by_cases h0 : m = 0
  · simp [h0, Fl.rnd_zero]
  have hp : (0 : ℚ) < 2 ^ k := by positivity
  have hmq : (1 : ℚ) ≤ |(m : ℚ)| := by
    have : (1 : ℤ) ≤ |m| := Int.one_le_abs h0
    exact_mod_cast this
  have hmq2 : |(m : ℚ)| ≤ 2 ^ (53 : ℕ) := by
    have : |m| ≤ 2 ^ (53 : ℕ) := le_of_lt hm
    exact_mod_cast this
  apply Fl.rnd_of_round53 _ _ (round53_dyadic m k hm)
  · rw [abs_mul, abs_of_pos hp]
    have h1 : DBL_MIN ≤ 2 ^ k := by
      unfold DBL_MIN
      exact zpow_le_zpow_right₀ (by norm_num) hk1
    calc DBL_MIN ≤ 2 ^ k := h1
      _ = 1 * 2 ^ k := by ring
      _ ≤ |(m : ℚ)| * 2 ^ k := mul_le_mul_of_nonneg_right hmq (le_of_lt hp)
  · rw [abs_mul, abs_of_pos hp]
    have h2 : (2 : ℚ) ^ (53 : ℕ) * 2 ^ k ≤ 2 ^ (1023 : ℤ) := by
      rw [← zpow_natCast, ← zpow_add₀ (by norm_num)]
      exact zpow_le_zpow_right₀ (by norm_num) (by push_cast; omega)
    calc |(m : ℚ)| * 2 ^ k ≤ 2 ^ (53 : ℕ) * 2 ^ k :=
          mul_le_mul_of_nonneg_right hmq2 (le_of_lt hp)
      _ ≤ 2 ^ (1023 : ℤ) := h2
      _ ≤ DBL_MAX := DBL_MAX_ge

/-- Relative accuracy of an operation. -/
theorem Fl.rnd_err (x r : ℚ) (h : Fl.rnd x = some r) : |r - x| ≤ |x| * Fl.u := by
  rw [Fl.rnd_eq_some x r h]
  have := round53_err x
  unfold Fl.u
  rw [mul_one_div]
  exact_mod_cast this

/-- The sign of the exact result is kept. -/
theorem Fl.rnd_mul_nonneg (x r : ℚ) (h : Fl.rnd x = some r) : 0 ≤ r * x := by
  rw [Fl.rnd_eq_some x r h]
  rcases le_total 0 x with hx | hx
  · exact mul_nonneg (round53_nonneg x hx) hx
  · exact mul_nonneg_of_nonpos_of_nonpos (round53_nonpos x hx) hx

/-- The square of the result of an operation, between the bounds of the relative accuracy. -/
theorem Fl.rnd_sq_bounds (x r : ℚ) (h : Fl.rnd x = some r) :
    (1 - Fl.u) ^ 2 * x ^ 2 ≤ r ^ 2 ∧ r ^ 2 ≤ (1 + Fl.u) ^ 2 * x ^ 2 := by
  rw [Fl.rnd_eq_some x r h]
  have := round53_sq_bounds x
  unfold Fl.u
  exact_mod_cast this

/-- A quotient that has a value has a non-zero divisor and is the rounding of the exact
quotient. -/
theorem Fl.div_eq_some (a b r : ℚ) (h : Fl.div a b = some r) : b ≠ 0 ∧ Fl.rnd (a / b) = some r := by
  unfold Fl.div at h
  split_ifs at h with h0
  exact ⟨h0, h⟩

/-- The unit roundoff is positive and below one. -/
theorem Fl.u_pos : 0 < Fl.u ∧ Fl.u < 1 := by
  unfold Fl.u
  constructor <;> norm_num

/-- Evaluation of `Fl.sqrt` from the scaling exponent and the integer square root. -/
theorem Fl.sqrt_eval (x : ℚ) (l k : ℤ) (n q : ℕ) (hx : 0 < x)
    (hlo : (2 : ℚ) ^ l ≤ x) (hhi : x < 2 ^ (l + 1)) (hk : 55 - l / 2 = k)
    (hn : x * 4 ^ k = (n : ℚ)) (hq1 : q * q ≤ n) (hq2 : n < (q + 1) * (q + 1)) :
    Fl.sqrt x = round53 (((q : ℚ) + (if q * q = n then 0 else 1 / 2)) / 2 ^ k) := by
  have hl : Int.log 2 x = l := log_eq_of_bounds x l hlo hhi
  have hf : ⌊x * 4 ^ k⌋₊ = n := by
    rw [hn]
    exact Nat.floor_natCast n
  have hs : Nat.sqrt n = q := (Nat.eq_sqrt.mpr ⟨hq1, hq2⟩).symm
  unfold Fl.sqrt
  rw [if_neg (not_le.mpr hx)]
  simp only [hl, hk]
  rw [hf, hs, hn]
  have hc : ((q : ℚ) * q = (n : ℚ)) ↔ (q * q = n) := by
    constructor
    · intro h
      exact_mod_cast h
    · intro h
      exact_mod_cast h
  simp only [hc]

/-- The norm in double arithmetic, from the values of its operations. -/
theorem Fl.norm3_of (v : Vect3) (xx yy zz s t : ℚ) (hxx : Fl.mul v.x v.x = some xx)
    (hyy : Fl.mul v.y v.y = some yy) (hzz : Fl.mul v.z v.z = some zz)
    (hs : Fl.add xx yy = some s) (ht : Fl.add s zz = some t) :
    Fl.norm3 v = some (Fl.sqrt t) := by
  simp only [Fl.norm3, hxx, hyy, hzz, hs, ht]

/-- Method `Hat` in double arithmetic, from the values of its operations. -/
theorem Fl.Hat_of (M : Fl.MathFns) (v : Velocity) (n a b c : ℚ)
    (hn : M.norm3 v.toVect3 = some n) (h0 : n ≠ 0) (ha : Fl.div v.x n = some a)
    (hb : Fl.div v.y n = some b) (hc : Fl.div v.z n = some c) :
    Fl.Velocity.Hat M v = some ⟨⟨a, b, c⟩⟩ := by
  simp only [Fl.Velocity.Hat, hn, if_neg h0, ha, hb, hc, Velocity.mkVxyz]

/-- Method `gs` in double arithmetic, from the values of its operations. -/
theorem Fl.gs_of (M : Fl.MathFns) (v : Velocity) (xx yy s : ℚ) (hxx : Fl.mul v.x v.x = some xx)
    (hyy : Fl.mul v.y v.y = some yy) (hs : Fl.add xx yy = some s) :
    Fl.Velocity.gs M v = some (M.sqrt_safe s) := by
  simp only [Fl.Velocity.gs, hxx, hyy, hs]

/-- Method `mkGs` in double arithmetic for a positive ground speed, from the values of its
operations. -/
theorem Fl.mkGs_of (M : Fl.MathFns) (v : Velocity) (gs_d gs0 scal a b : ℚ) (hgs : 0 ≤ gs_d)
    (hg : Fl.Velocity.gs M v = some gs0) (h0 : gs0 > 0) (hs : Fl.div gs_d gs0 = some scal)
    (ha : Fl.mul v.x scal = some a) (hb : Fl.mul v.y scal = some b) :
    Fl.Velocity.mkGs M v gs_d = some (some ⟨⟨a, b, v.z⟩⟩) := by
  simp only [Fl.Velocity.mkGs, if_neg (not_lt.mpr hgs), hg, if_pos h0, hs, ha, hb,
    Velocity.mkVxyz, Velocity.vs]

/-- Method `mkTrk` in double arithmetic, from the values of its operations. -/
theorem Fl.mkTrk_of (M : Fl.MathFns) (v : Velocity) (trk g a b : ℚ)
    (hg : Fl.Velocity.gs M v = some g) (ha : Fl.mul g (M.sin trk) = some a)
    (hb : Fl.mul g (M.cos trk) = some b) :
    Fl.Velocity.mkTrk M v trk = some ⟨⟨a, b, v.z⟩⟩ := by
  simp only [Fl.Velocity.mkTrk, hg, Fl.Velocity.mkTrkGsVs, Fl.Velocity.trkgs2vx,
    Fl.Velocity.trkgs2vy, ha, hb, Velocity.vs]

/-- The norm of `(2, 3, 6)` in double arithmetic. -/
theorem Fl.Sample.norm_236 : Fl.math.norm3 ⟨2, 3, 6⟩ = some 7 := by
  have hxx : Fl.mul 2 2 = some 4 := by
    simp only [Fl.mul]
    have h := Fl.rnd_dyadic (1) (2) (by norm_num) (by norm_num) (by norm_num)
    norm_num at h ⊢
    exact h
  have hyy : Fl.mul 3 3 = some 9 := by
    simp only [Fl.mul]
    have h := Fl.rnd_dyadic (9) (0) (by norm_num) (by norm_num) (by norm_num)
    norm_num at h ⊢
    exact h
  have hzz : Fl.mul 6 6 = some 36 := by
    simp only [Fl.mul]
    have h := Fl.rnd_dyadic (9) (2) (by norm_num) (by norm_num) (by norm_num)
    norm_num at h ⊢
    exact h
  have hs1 : Fl.add 4 9 = some 13 := by
    simp only [Fl.add]
    have h := Fl.rnd_dyadic (13) (0) (by norm_num) (by norm_num) (by norm_num)
    norm_num at h ⊢
    exact h
  have hs2 : Fl.add 13 36 = some 49 := by
    simp only [Fl.add]
    have h := Fl.rnd_dyadic (49) (0) (by norm_num) (by norm_num) (by norm_num)
    norm_num at h ⊢
    exact h
  have hsq : Fl.sqrt 49 = 7 := by
    have h := Fl.sqrt_eval 49 (5) (53)
        (3975352282315727403093661252059136) (63050394783186944)
        (by norm_num) (by norm_num) (by norm_num) (by norm_num)
        (by norm_num) (by norm_num) (by norm_num)
    rw [h]
    have h2 := round53_dyadic (7) (0) (by norm_num)
    norm_num at h2 ⊢
    exact h2
  have h := Fl.norm3_of ⟨2, 3, 6⟩ 4 9 36 13 49 hxx hyy hzz hs1 hs2
  rw [hsq] at h
  exact h

/-- The unit vector of `(2, 3, 6)`, of norm 7, in double arithmetic: the three quotients are
rounded. -/
theorem Fl.Sample.Hat_236 :
    Fl.Velocity.Hat Fl.math ⟨⟨2, 3, 6⟩⟩
      = some
        ⟨⟨(2573485501354569 / 9007199254740992),
            (7720456504063707 / 18014398509481984), (7720456504063707 / 9007199254740992)⟩⟩ := by
  have ha : Fl.div 2 7 = some (2573485501354569 / 9007199254740992) := by
    have hb : (7 : ℚ) ≠ 0 := by norm_num
    simp only [Fl.div, if_neg hb]
    have h := Fl.rnd_eval
        (2 / 7 : ℚ) (-54) (5146971002709138) (by norm_num) (by norm_num)
        (roundHalfEven_near _ _ (by rw [abs_lt]; constructor <;> norm_num))
        (by norm_num) (by norm_num)
    rw [h]
    norm_num
  have hb : Fl.div 3 7 = some (7720456504063707 / 18014398509481984) := by
    have hb : (7 : ℚ) ≠ 0 := by norm_num
    simp only [Fl.div, if_neg hb]
    have h := Fl.rnd_eval
        (3 / 7 : ℚ) (-54) (7720456504063707) (by norm_num) (by norm_num)
        (roundHalfEven_near _ _ (by rw [abs_lt]; constructor <;> norm_num))
        (by norm_num) (by norm_num)
    rw [h]
    norm_num
  have hc : Fl.div 6 7 = some (7720456504063707 / 9007199254740992) := by
    have hb : (7 : ℚ) ≠ 0 := by norm_num
    simp only [Fl.div, if_neg hb]
    have h := Fl.rnd_eval
        (6 / 7 : ℚ) (-53) (7720456504063707) (by norm_num) (by norm_num)
        (roundHalfEven_near _ _ (by rw [abs_lt]; constructor <;> norm_num))
        (by norm_num) (by norm_num)
    rw [h]
    norm_num
  exact Fl.Hat_of Fl.math ⟨⟨2, 3, 6⟩⟩ 7 _ _ _ Fl.Sample.norm_236 (by norm_num) ha hb hc

/-- The norm of the computed unit vector of `(2, 3, 6)`, in double arithmetic: `1 - 2^-53`. -/
theorem Fl.Sample.norm_Hat_236 :
    Fl.math.norm3
        ⟨(2573485501354569 / 9007199254740992),
            (7720456504063707 / 18014398509481984), (7720456504063707 / 9007199254740992)⟩
      = some (1 - 1 / 2 ^ 53) := by
  have hxx :
      Fl.mul (2573485501354569 / 9007199254740992) (2573485501354569 / 9007199254740992)
      = some (5882252574524729 / 72057594037927936) := by
    simp only [Fl.mul]
    have h := Fl.rnd_eval
        ((2573485501354569 / 9007199254740992) * (2573485501354569 / 9007199254740992) : ℚ)
        (-56) (5882252574524729) (by norm_num) (by norm_num)
        (roundHalfEven_near _ _ (by rw [abs_lt]; constructor <;> norm_num))
        (by norm_num) (by norm_num)
    rw [h]
    norm_num
  have hyy :
      Fl.mul (7720456504063707 / 18014398509481984) (7720456504063707 / 18014398509481984)
      = some (206797942073135 / 1125899906842624) := by
    simp only [Fl.mul]
    have h := Fl.rnd_eval
        ((7720456504063707 / 18014398509481984) * (7720456504063707 / 18014398509481984) : ℚ)
        (-55) (6617534146340320) (by norm_num) (by norm_num)
        (roundHalfEven_near _ _ (by rw [abs_lt]; constructor <;> norm_num))
        (by norm_num) (by norm_num)
    rw [h]
    norm_num
  have hzz :
      Fl.mul (7720456504063707 / 9007199254740992) (7720456504063707 / 9007199254740992)
      = some (206797942073135 / 281474976710656) := by
    simp only [Fl.mul]
    have h := Fl.rnd_eval
        ((7720456504063707 / 9007199254740992) * (7720456504063707 / 9007199254740992) : ℚ)
        (-53) (6617534146340320) (by norm_num) (by norm_num)
        (roundHalfEven_near _ _ (by rw [abs_lt]; constructor <;> norm_num))
        (by norm_num) (by norm_num)
    rw [h]
    norm_num
  have hs1 :
      Fl.add (5882252574524729 / 72057594037927936) (206797942073135 / 1125899906842624)
      = some (2389665108400671 / 9007199254740992) := by
    simp only [Fl.add]
    have h := Fl.rnd_eval
        ((5882252574524729 / 72057594037927936) + (206797942073135 / 1125899906842624) : ℚ)
        (-54) (4779330216801342) (by norm_num) (by norm_num)
        (roundHalfEven_near _ _ (by rw [abs_lt]; constructor <;> norm_num))
        (by norm_num) (by norm_num)
    rw [h]
    norm_num
  have hs2 :
      Fl.add (2389665108400671 / 9007199254740992) (206797942073135 / 281474976710656)
      = some (9007199254740991 / 9007199254740992) := by
    simp only [Fl.add]
    have h := Fl.rnd_dyadic (9007199254740991) (-53) (by norm_num) (by norm_num) (by norm_num)
    norm_num at h ⊢
    exact h
  have hsq :
      Fl.sqrt (9007199254740991 / 9007199254740992) = (9007199254740991 / 9007199254740992) := by
    have h := Fl.sqrt_eval (9007199254740991 / 9007199254740992) (-1) (56)
        (5192296858534827052069744025796608) (72057594037927931)
        (by norm_num) (by norm_num) (by norm_num) (by norm_num)
        (by norm_num) (by norm_num) (by norm_num)
    rw [h]
    have h2 := round53_eval
        (144115188075855863 / 144115188075855872) (-53) (9007199254740991)
        (by norm_num) (by norm_num)
        (roundHalfEven_near _ _ (by rw [abs_lt]; constructor <;> norm_num))
    norm_num at h2 ⊢
    exact h2
  have h := Fl.norm3_of
    ⟨(2573485501354569 / 9007199254740992),
        (7720456504063707 / 18014398509481984), (7720456504063707 / 9007199254740992)⟩
    _ _ _ _ _ hxx hyy hzz hs1 hs2
  rw [hsq] at h
  norm_num at h ⊢
  exact h

/-- C15, amended. `Velocity::Hat` in double arithmetic returns the zero velocity when the norm
`n` of the velocity is exactly 0.  When `n` is not 0 and the three quotients are in the range of
the normal doubles, it returns the doubles nearest to `x/n`, `y/n` and `z/n`: each differs from
the exact quotient by at most the fraction `2^-53` of it and has the sign of `x`, `y`, `z` when
`n > 0`, and the squared length `L` of the result satisfies
`(1 - 2^-53)²·(x² + y² + z²) ≤ L·n² ≤ (1 + 2^-53)²·(x² + y² + z²)`.  The length is 1 only up
to these roundings and to the rounding of `n` itself. -/
theorem C15_Hat_rounded (M : Fl.MathFns) (v : Velocity) (n : ℚ)
    (hn : M.norm3 v.toVect3 = some n) :
    (n = 0 → Fl.Velocity.Hat M v = some Velocity.ZEROV)
      ∧ (n ≠ 0 → ∀ h : Velocity, Fl.Velocity.Hat M v = some h →
        h.x = round53 (v.x / n) ∧ h.y = round53 (v.y / n) ∧ h.z = round53 (v.z / n)
        ∧ |h.x - v.x / n| ≤ |v.x / n| * Fl.u
        ∧ |h.y - v.y / n| ≤ |v.y / n| * Fl.u
        ∧ |h.z - v.z / n| ≤ |v.z / n| * Fl.u
        ∧ (1 - Fl.u) ^ 2 * (v.x ^ 2 + v.y ^ 2 + v.z ^ 2)
          ≤ (h.x ^ 2 + h.y ^ 2 + h.z ^ 2) * n ^ 2
        ∧ (h.x ^ 2 + h.y ^ 2 + h.z ^ 2) * n ^ 2
          ≤ (1 + Fl.u) ^ 2 * (v.x ^ 2 + v.y ^ 2 + v.z ^ 2)
        ∧ (0 < n → 0 ≤ h.x * v.x ∧ 0 ≤ h.y * v.y ∧ 0 ≤ h.z * v.z)) := by
  constructor
  · intro h0
    simp only [Fl.Velocity.Hat, hn, if_pos h0]
  · intro h0 h hh
    simp only [Fl.Velocity.Hat, hn, if_neg h0] at hh
    split at hh
    · rename_i a b c ha hb hc
      have hv := Option.some.inj hh
      have hx : h.x = a := by rw [← hv]; rfl
      have hy : h.y = b := by rw [← hv]; rfl
      have hz : h.z = c := by rw [← hv]; rfl
      have ra := (Fl.div_eq_some _ _ _ ha).2
      have rb := (Fl.div_eq_some _ _ _ hb).2
      have rc := (Fl.div_eq_some _ _ _ hc).2
      have hn2 : 0 < n ^ 2 := by positivity
      have sq : ∀ t : ℚ, (t / n) ^ 2 * n ^ 2 = t ^ 2 := by
        intro t
        field_simp
      have sa := Fl.rnd_sq_bounds _ _ ra
      have sb := Fl.rnd_sq_bounds _ _ rb
      have sc := Fl.rnd_sq_bounds _ _ rc
      rw [hx, hy, hz]
      refine ⟨Fl.rnd_eq_some _ _ ra, Fl.rnd_eq_some _ _ rb, Fl.rnd_eq_some _ _ rc,
        Fl.rnd_err _ _ ra, Fl.rnd_err _ _ rb, Fl.rnd_err _ _ rc, ?_, ?_, ?_⟩
      · have e : (1 - Fl.u) ^ 2 * (v.x ^ 2 + v.y ^ 2 + v.z ^ 2)
            = ((1 - Fl.u) ^ 2 * (v.x / n) ^ 2 + (1 - Fl.u) ^ 2 * (v.y / n) ^ 2
              + (1 - Fl.u) ^ 2 * (v.z / n) ^ 2) * n ^ 2 := by
          rw [← sq v.x, ← sq v.y, ← sq v.z]
          ring
        rw [e]
        exact mul_le_mul_of_nonneg_right (by linarith [sa.1, sb.1, sc.1]) (le_of_lt hn2)
      · have e : (1 + Fl.u) ^ 2 * (v.x ^ 2 + v.y ^ 2 + v.z ^ 2)
            = ((1 + Fl.u) ^ 2 * (v.x / n) ^ 2 + (1 + Fl.u) ^ 2 * (v.y / n) ^ 2
              + (1 + Fl.u) ^ 2 * (v.z / n) ^ 2) * n ^ 2 := by
          rw [← sq v.x, ← sq v.y, ← sq v.z]
          ring
        rw [e]
        exact mul_le_mul_of_nonneg_right (by linarith [sa.2, sb.2, sc.2]) (le_of_lt hn2)
      · intro hpos
        have sg : ∀ r t : ℚ, 0 ≤ r * (t / n) → 0 ≤ r * t := by
          intro r t hrt
          have : r * t = r * (t / n) * n := by field_simp
          rw [this]
          exact mul_nonneg hrt (le_of_lt hpos)
        exact ⟨sg _ _ (Fl.rnd_mul_nonneg _ _ ra), sg _ _ (Fl.rnd_mul_nonneg _ _ rb),
          sg _ _ (Fl.rnd_mul_nonneg _ _ rc)⟩
    · exact absurd hh (by simp)

/-- C15, as stated, fails in double arithmetic.  The velocity `(2, 3, 6)` has norm exactly 7;
the components `2/7`, `3/7`, `6/7` of its unit vector are not doubles and are rounded; the
squares of the computed components do not add up to 1, and the norm of the computed vector,
itself computed in double arithmetic, is `1 - 2^-53`. -/
theorem C15_counterexample :
    Fl.math.norm3 ⟨2, 3, 6⟩ = some 7
      ∧ Fl.Velocity.Hat Fl.math ⟨⟨2, 3, 6⟩⟩
        = some ⟨⟨2573485501354569 / 9007199254740992, 7720456504063707 / 18014398509481984,
            7720456504063707 / 9007199254740992⟩⟩
      ∧ Fl.math.norm3 ⟨2573485501354569 / 9007199254740992,
            7720456504063707 / 18014398509481984, 7720456504063707 / 9007199254740992⟩
        = some (1 - 1 / 2 ^ 53)
      ∧ (1 - 1 / 2 ^ 53 : ℚ) ≠ 1
      ∧ (2573485501354569 / 9007199254740992 : ℚ) ^ 2
          + (7720456504063707 / 18014398509481984) ^ 2
          + (7720456504063707 / 9007199254740992) ^ 2 ≠ 1 :=
  ⟨Fl.Sample.norm_236, Fl.Sample.Hat_236, Fl.Sample.norm_Hat_236, by norm_num, by norm_num⟩

/-- Witness for the amended C15: the velocity `(2, 3, 6)` of norm 7, whose computed unit vector
has the squared length `L` with `(1 - 2^-53)²·49 ≤ L·49 ≤ (1 + 2^-53)²·49`. -/
theorem C15_Hat_rounded_witness :
    (1 - Fl.u) ^ 2 * ((2 : ℚ) ^ 2 + 3 ^ 2 + 6 ^ 2)
        ≤ ((2573485501354569 / 9007199254740992 : ℚ) ^ 2
          + (7720456504063707 / 18014398509481984) ^ 2
          + (7720456504063707 / 9007199254740992) ^ 2) * 7 ^ 2
      ∧ ((2573485501354569 / 9007199254740992 : ℚ) ^ 2
          + (7720456504063707 / 18014398509481984) ^ 2
          + (7720456504063707 / 9007199254740992) ^ 2) * 7 ^ 2
        ≤ (1 + Fl.u) ^ 2 * ((2 : ℚ) ^ 2 + 3 ^ 2 + 6 ^ 2) := by
  have h := (C15_Hat_rounded Fl.math ⟨⟨2, 3, 6⟩⟩ 7 Fl.Sample.norm_236).2 (by norm_num) _
    Fl.Sample.Hat_236
  exact ⟨h.2.2.2.2.2.2.1, h.2.2.2.2.2.2.2.1⟩

/-- The ground speed of `(1, 1, 0)` in double arithmetic: the double nearest to the root
of 2. -/
theorem Fl.Sample.gs_110 :
    Fl.Velocity.gs Fl.math ⟨⟨1, 1, 0⟩⟩ = some (6369051672525773 / 4503599627370496) := by
  have hxx : Fl.mul 1 1 = some 1 := by
    simp only [Fl.mul]
    have h := Fl.rnd_dyadic (1) (0) (by norm_num) (by norm_num) (by norm_num)
    norm_num at h ⊢
    exact h
  have hs : Fl.add 1 1 = some 2 := by
    simp only [Fl.add]
    have h := Fl.rnd_dyadic (1) (1) (by norm_num) (by norm_num) (by norm_num)
    norm_num at h ⊢
    exact h
  have hsq : Fl.sqrt 2 = (6369051672525773 / 4503599627370496) := by
    have h := Fl.sqrt_eval 2 (1) (55)
        (2596148429267413814265248164610048) (50952413380206180)
        (by norm_num) (by norm_num) (by norm_num) (by norm_num)
        (by norm_num) (by norm_num) (by norm_num)
    rw [h]
    have h2 := round53_eval
        (101904826760412361 / 72057594037927936) (-52) (6369051672525773)
        (by norm_num) (by norm_num)
        (roundHalfEven_near _ _ (by rw [abs_lt]; constructor <;> norm_num))
    norm_num at h2 ⊢
    exact h2
  have h := Fl.gs_of Fl.math ⟨⟨1, 1, 0⟩⟩ 1 1 2 hxx hxx hs
  have hm : Fl.math.sqrt_safe 2 = (6369051672525773 / 4503599627370496) := by
    simp only [Fl.math, Fl.sqrt_safe]
    rw [max_eq_left (by norm_num)]
    exact hsq
  rw [hm] at h
  exact h

/-- Method `mkGs(1)` on `(1, 1, 0)` in double arithmetic. -/
theorem Fl.Sample.mkGs_110 :
    Fl.Velocity.mkGs Fl.math ⟨⟨1, 1, 0⟩⟩ 1
      = some (some
        ⟨⟨(1592262918131443 / 2251799813685248), (1592262918131443 / 2251799813685248), 0⟩⟩) := by
  have hsc :
      Fl.div 1 (6369051672525773 / 4503599627370496)
      = some (1592262918131443 / 2251799813685248) := by
    have hb : ((6369051672525773 / 4503599627370496) : ℚ) ≠ 0 := by norm_num
    simp only [Fl.div, if_neg hb]
    have h := Fl.rnd_eval
        (1 / (6369051672525773 / 4503599627370496) : ℚ) (-53) (6369051672525772)
        (by norm_num) (by norm_num)
        (roundHalfEven_near _ _ (by rw [abs_lt]; constructor <;> norm_num))
        (by norm_num) (by norm_num)
    rw [h]
    norm_num
  have ha :
      Fl.mul 1 (1592262918131443 / 2251799813685248)
      = some (1592262918131443 / 2251799813685248) := by
    simp only [Fl.mul]
    have h := Fl.rnd_dyadic (1592262918131443) (-51) (by norm_num) (by norm_num) (by norm_num)
    norm_num at h ⊢
    exact h
  exact Fl.mkGs_of Fl.math ⟨⟨1, 1, 0⟩⟩ 1 _ _ _ _ (by norm_num) Fl.Sample.gs_110 (by norm_num)
    hsc ha ha

/-- The ground speed of the result of `mkGs(1)` on `(1, 1, 0)` in double arithmetic:
`1 - 2^-53`. -/
theorem Fl.Sample.gs_mkGs_110 :
    Fl.Velocity.gs Fl.math
        ⟨⟨(1592262918131443 / 2251799813685248), (1592262918131443 / 2251799813685248), 0⟩⟩
      = some (1 - 1 / 2 ^ 53) := by
  have hxx :
      Fl.mul (1592262918131443 / 2251799813685248) (1592262918131443 / 2251799813685248)
      = some (4503599627370495 / 9007199254740992) := by
    simp only [Fl.mul]
    have h := Fl.rnd_eval
        ((1592262918131443 / 2251799813685248) * (1592262918131443 / 2251799813685248) : ℚ)
        (-54) (9007199254740990) (by norm_num) (by norm_num)
        (roundHalfEven_near _ _ (by rw [abs_lt]; constructor <;> norm_num))
        (by norm_num) (by norm_num)
    rw [h]
    norm_num
  have hs :
      Fl.add (4503599627370495 / 9007199254740992) (4503599627370495 / 9007199254740992)
      = some (4503599627370495 / 4503599627370496) := by
    simp only [Fl.add]
    have h := Fl.rnd_dyadic (4503599627370495) (-52) (by norm_num) (by norm_num) (by norm_num)
    norm_num at h ⊢
    exact h
  have hsq :
      Fl.sqrt (4503599627370495 / 4503599627370496) = (9007199254740991 / 9007199254740992) := by
    have h := Fl.sqrt_eval (4503599627370495 / 4503599627370496) (-1) (56)
        (5192296858534826475608991722373120) (72057594037927927)
        (by norm_num) (by norm_num) (by norm_num) (by norm_num)
        (by norm_num) (by norm_num) (by norm_num)
    rw [h]
    have h2 := round53_eval
        (144115188075855855 / 144115188075855872) (-53) (9007199254740991)
        (by norm_num) (by norm_num)
        (roundHalfEven_near _ _ (by rw [abs_lt]; constructor <;> norm_num))
    norm_num at h2 ⊢
    exact h2
  have h := Fl.gs_of Fl.math
    ⟨⟨(1592262918131443 / 2251799813685248), (1592262918131443 / 2251799813685248), 0⟩⟩
    _ _ _ hxx hxx hs
  have hm : Fl.math.sqrt_safe (4503599627370495 / 4503599627370496) = 1 - 1 / 2 ^ 53 := by
    simp only [Fl.math, Fl.sqrt_safe]
    rw [max_eq_left (by norm_num)]
    rw [hsq]
    norm_num
  rw [hm] at h
  exact h

/-- C16, amended. In double arithmetic, for `gs_d ≥ 0`, `mkGs` never returns the invalid
velocity, and a result `r` in the range of the normal doubles has the vertical speed of `v`.
When the computed ground speed `gs0` of `v` is positive, the horizontal components of `r` are
the doubles nearest to `x·scal` and `y·scal`, with `scal ≥ 0` the double nearest to
`gs_d / gs0`; they have the signs of `x` and `y`, and the squared ground speed `L` of `r`
satisfies `(1 - 2^-53)⁴·gs_d²·(x² + y²) ≤ L·gs0² ≤ (1 + 2^-53)⁴·gs_d²·(x² + y²)`: the ground
speed of `r` is `gs_d` only up to the roundings of the quotient, of the two products and of
`gs0`.  When `gs0` is not positive, `r` is `(0, gs_d, vs)`. -/
theorem C16_mkGs_rounded (M : Fl.MathFns) (v : Velocity) (gs_d gs0 : ℚ) (hgs : 0 ≤ gs_d)
    (hg0 : Fl.Velocity.gs M v = some gs0) :
    Fl.Velocity.mkGs M v gs_d ≠ some none
      ∧ ∀ r : Velocity, Fl.Velocity.mkGs M v gs_d = some (some r) →
        r.vs = v.vs
        ∧ (0 < gs0 →
          0 ≤ round53 (gs_d / gs0)
          ∧ r.x = round53 (v.x * round53 (gs_d / gs0))
          ∧ r.y = round53 (v.y * round53 (gs_d / gs0))
          ∧ 0 ≤ r.x * v.x ∧ 0 ≤ r.y * v.y
          ∧ (1 - Fl.u) ^ 4 * gs_d ^ 2 * (v.x ^ 2 + v.y ^ 2) ≤ (r.x ^ 2 + r.y ^ 2) * gs0 ^ 2
          ∧ (r.x ^ 2 + r.y ^ 2) * gs0 ^ 2 ≤ (1 + Fl.u) ^ 4 * gs_d ^ 2 * (v.x ^ 2 + v.y ^ 2))
        ∧ (¬ 0 < gs0 → r = Velocity.mkVxyz 0 gs_d v.vs) := by
  have hng : ¬ gs_d < 0 := not_lt.mpr hgs
  constructor
  · simp only [Fl.Velocity.mkGs, if_neg hng, hg0]
    split_ifs with hp
    · split
      · split <;> simp
      · simp
    · simp
  · intro r hr
    simp only [Fl.Velocity.mkGs, if_neg hng, hg0] at hr
    by_cases hp : gs0 > 0
    · rw [if_pos hp] at hr
      split at hr
      · rename_i scal hscal
        split at hr
        · rename_i a b ha hb
          have hv := Option.some.inj (Option.some.inj hr)
          have hx : r.x = a := by rw [← hv]; rfl
          have hy : r.y = b := by rw [← hv]; rfl
          have hz : r.vs = v.vs := by rw [← hv]; rfl
          have rs := (Fl.div_eq_some _ _ _ hscal).2
          have es := Fl.rnd_eq_some _ _ rs
          have ss := Fl.rnd_sq_bounds _ _ rs
          have sa := Fl.rnd_sq_bounds _ _ ha
          have sb := Fl.rnd_sq_bounds _ _ hb
          have hs0 : 0 ≤ scal := by
            rw [es]
            exact round53_nonneg _ (div_nonneg hgs (le_of_lt hp))
          have sg : ∀ c t : ℚ, 0 ≤ c * (t * scal) → 0 ≤ c * t ∨ scal = 0 := by
            intro c t hct
            rcases eq_or_lt_of_le hs0 with h0 | h0
            · exact Or.inr h0.symm
            · left
              have : c * (t * scal) = (c * t) * scal := by ring
              rw [this] at hct
              exact nonneg_of_mul_nonneg_left hct h0
          have sg2 : ∀ c t : ℚ, Fl.mul t scal = some c → 0 ≤ c * t := by
            intro c t hc
            rcases sg c t (Fl.rnd_mul_nonneg _ _ hc) with h | h
            · exact h
            · have hc0 : c = 0 := by
                have := Fl.rnd_eq_some _ _ hc
                rw [h, mul_zero, round53_zero] at this
                exact this
              rw [hc0, zero_mul]
          have hg2 : 0 < gs0 ^ 2 := by positivity
          have hq : (gs_d / gs0) ^ 2 * gs0 ^ 2 = gs_d ^ 2 := by
            field_simp
          have hS : 0 ≤ v.x ^ 2 + v.y ^ 2 := by positivity
          have hu := Fl.u_pos
          have h1u : 0 ≤ (1 - Fl.u) ^ 2 := by positivity
          have h2u : 0 ≤ (1 + Fl.u) ^ 2 := by positivity
          refine ⟨hz, fun _ => ?_, fun hn => absurd hp hn⟩
          rw [hx, hy, ← es]
          refine ⟨hs0, Fl.rnd_eq_some _ _ ha, Fl.rnd_eq_some _ _ hb, sg2 a v.x ha, sg2 b v.y hb,
            ?_, ?_⟩
          · have l1 : (1 - Fl.u) ^ 2 * (scal ^ 2 * (v.x ^ 2 + v.y ^ 2)) ≤ a ^ 2 + b ^ 2 := by
              have := sa.1
              have := sb.1
              nlinarith
            have l2 : (1 - Fl.u) ^ 2 * (gs_d / gs0) ^ 2 * (v.x ^ 2 + v.y ^ 2)
                ≤ scal ^ 2 * (v.x ^ 2 + v.y ^ 2) := mul_le_mul_of_nonneg_right ss.1 hS
            have l3 : (1 - Fl.u) ^ 2 * ((1 - Fl.u) ^ 2 * (gs_d / gs0) ^ 2 * (v.x ^ 2 + v.y ^ 2))
                ≤ (1 - Fl.u) ^ 2 * (scal ^ 2 * (v.x ^ 2 + v.y ^ 2)) :=
              mul_le_mul_of_nonneg_left l2 h1u
            have l4 := mul_le_mul_of_nonneg_right (le_trans l3 l1) (le_of_lt hg2)
            calc (1 - Fl.u) ^ 4 * gs_d ^ 2 * (v.x ^ 2 + v.y ^ 2)
                = (1 - Fl.u) ^ 2 * ((1 - Fl.u) ^ 2 * (gs_d / gs0) ^ 2 * (v.x ^ 2 + v.y ^ 2))
                  * gs0 ^ 2 := by
                  rw [← hq]
                  ring
              _ ≤ (a ^ 2 + b ^ 2) * gs0 ^ 2 := l4
          · have l1 : a ^ 2 + b ^ 2 ≤ (1 + Fl.u) ^ 2 * (scal ^ 2 * (v.x ^ 2 + v.y ^ 2)) := by
              have := sa.2
              have := sb.2
              nlinarith
            have l2 : scal ^ 2 * (v.x ^ 2 + v.y ^ 2)
                ≤ (1 + Fl.u) ^ 2 * (gs_d / gs0) ^ 2 * (v.x ^ 2 + v.y ^ 2) :=
              mul_le_mul_of_nonneg_right ss.2 hS
            have l3 : (1 + Fl.u) ^ 2 * (scal ^ 2 * (v.x ^ 2 + v.y ^ 2))
                ≤ (1 + Fl.u) ^ 2 * ((1 + Fl.u) ^ 2 * (gs_d / gs0) ^ 2 * (v.x ^ 2 + v.y ^ 2)) :=
              mul_le_mul_of_nonneg_left l2 h2u
            have l4 := mul_le_mul_of_nonneg_right (le_trans l1 l3) (le_of_lt hg2)
            calc (a ^ 2 + b ^ 2) * gs0 ^ 2
                ≤ (1 + Fl.u) ^ 2 * ((1 + Fl.u) ^ 2 * (gs_d / gs0) ^ 2 * (v.x ^ 2 + v.y ^ 2))
                  * gs0 ^ 2 := l4
              _ = (1 + Fl.u) ^ 4 * gs_d ^ 2 * (v.x ^ 2 + v.y ^ 2) := by
                  rw [← hq]
                  ring
        · exact absurd hr (by simp)
      · exact absurd hr (by simp)
    · rw [if_neg hp] at hr
      have hv := Option.some.inj (Option.some.inj hr)
      refine ⟨by rw [← hv]; rfl, fun h => absurd h hp, fun _ => hv.symm⟩

/-- C16, as stated, fails in double arithmetic.  The velocity `(1, 1, 0)` has the computed
ground speed `gs0 = 6369051672525773 / 2^52`, the double nearest to the root of 2 (the square
of `gs0 - 2^-53` is below 2 and that of `gs0 + 2^-53` above); it is positive, so `mkGs(1)`
scales `x` and `y` by the double nearest to `1 / gs0`; the ground speed of the result, computed
by `gs()`, is `1 - 2^-53` and not 1. -/
theorem C16_counterexample :
    Fl.Velocity.gs Fl.math ⟨⟨1, 1, 0⟩⟩ = some (6369051672525773 / 4503599627370496)
      ∧ (6369051672525773 / 4503599627370496 - 1 / 2 ^ 53 : ℚ) ^ 2 < 2
      ∧ (2 : ℚ) < (6369051672525773 / 4503599627370496 + 1 / 2 ^ 53) ^ 2
      ∧ Fl.Velocity.mkGs Fl.math ⟨⟨1, 1, 0⟩⟩ 1
        = some (some ⟨⟨1592262918131443 / 2251799813685248,
            1592262918131443 / 2251799813685248, 0⟩⟩)
      ∧ Fl.Velocity.gs Fl.math ⟨⟨1592262918131443 / 2251799813685248,
            1592262918131443 / 2251799813685248, 0⟩⟩ = some (1 - 1 / 2 ^ 53)
      ∧ (1 - 1 / 2 ^ 53 : ℚ) ≠ 1 := by
  refine ⟨Fl.Sample.gs_110, by norm_num, by norm_num, Fl.Sample.mkGs_110, ?_, by norm_num⟩
  have h := Fl.Sample.gs_mkGs_110
  norm_num at h ⊢
  exact h

/-- Witness for the amended C16: `mkGs(1)` on `(1, 1, 0)`, whose result has vertical speed 0 and
components with the signs of those of `(1, 1, 0)`. -/
theorem C16_mkGs_rounded_witness :
    Fl.Velocity.mkGs Fl.math ⟨⟨1, 1, 0⟩⟩ 1 ≠ some none
      ∧ (Velocity.vs ⟨⟨1592262918131443 / 2251799813685248,
            1592262918131443 / 2251799813685248, 0⟩⟩
          = Velocity.vs ⟨⟨1, 1, 0⟩⟩)
      ∧ (1 - Fl.u) ^ 4 * (1 : ℚ) ^ 2 * (1 ^ 2 + 1 ^ 2)
        ≤ ((1592262918131443 / 2251799813685248 : ℚ) ^ 2
            + (1592262918131443 / 2251799813685248) ^ 2)
          * (6369051672525773 / 4503599627370496) ^ 2
      ∧ ((1592262918131443 / 2251799813685248 : ℚ) ^ 2
            + (1592262918131443 / 2251799813685248) ^ 2)
          * (6369051672525773 / 4503599627370496) ^ 2
        ≤ (1 + Fl.u) ^ 4 * (1 : ℚ) ^ 2 * (1 ^ 2 + 1 ^ 2) := by
  have h := C16_mkGs_rounded Fl.math ⟨⟨1, 1, 0⟩⟩ 1 _ (by norm_num) Fl.Sample.gs_110
  have h2 := h.2 _ Fl.Sample.mkGs_110
  have h3 := h2.2.1 (by norm_num)
  exact ⟨h.1, h2.1, h3.2.2.2.2.2.1, h3.2.2.2.2.2.2⟩

/-- The partial sum of the exponential series at `t·i`, split into its real and imaginary
parts. -/
theorem exp_series_mul_I (t : ℝ) (n : ℕ) :
    ∑ m ∈ Finset.range (2 * n), ((t : ℂ) * Complex.I) ^ m / (m.factorial : ℂ)
      = ((∑ k ∈ Finset.range n, (-1) ^ k * t ^ (2 * k) / ((2 * k).factorial : ℝ) : ℝ) : ℂ)
        + ((∑ k ∈ Finset.range n, (-1) ^ k * t ^ (2 * k + 1) / ((2 * k + 1).factorial : ℝ) : ℝ)
            : ℂ) * Complex.I := by
  induction n with
  | zero => simp
  | succ n ih =>
    have h2 : 2 * (n + 1) = 2 * n + 1 + 1 := by ring
    have hI : Complex.I ^ (2 * n) = (-1) ^ n := by
      rw [pow_mul, Complex.I_sq]
    rw [h2, Finset.sum_range_succ, Finset.sum_range_succ, ih, Finset.sum_range_succ,
      Finset.sum_range_succ]
    push_cast
    rw [mul_pow, mul_pow, pow_succ Complex.I (2 * n), hI]
    ring

/-- The Taylor polynomial `Fl.sinPoly` is within `2^-97` of the sine on `[-1, 1]`. -/
theorem Fl.sinPoly_accurate (t : ℚ) (ht : |t| ≤ 1) :
    |Real.sin (t : ℝ) - ((Fl.sinPoly t : ℚ) : ℝ)| ≤ 1 / 2 ^ 97 := by
  have hx : Complex.abs ((t : ℝ) * Complex.I) ≤ 1 := by
    rw [map_mul, Complex.abs_I, mul_one, Complex.abs_ofReal]
    exact_mod_cast ht
  have hb := Complex.exp_bound hx (n := 28) (by norm_num)
  have hs := exp_series_mul_I (t : ℝ) 14
  rw [show 2 * 14 = 28 from rfl] at hs
  rw [hs] at hb
  have him := Complex.abs_im_le_abs
    (Complex.exp ((t : ℝ) * Complex.I)
      - (((∑ k ∈ Finset.range 14, (-1) ^ k * (t : ℝ) ^ (2 * k) / ((2 * k).factorial : ℝ) : ℝ) : ℂ)
        + ((∑ k ∈ Finset.range 14,
            (-1) ^ k * (t : ℝ) ^ (2 * k + 1) / ((2 * k + 1).factorial : ℝ) : ℝ) : ℂ)
          * Complex.I))
  rw [Complex.sub_im, Complex.exp_ofReal_mul_I_im, Complex.add_im, Complex.ofReal_im,
    Complex.im_ofReal_mul, Complex.I_im, mul_one, zero_add] at him
  have hp : ((Fl.sinPoly t : ℚ) : ℝ)
      = ∑ k ∈ Finset.range 14, (-1) ^ k * (t : ℝ) ^ (2 * k + 1) / ((2 * k + 1).factorial : ℝ) := by
    unfold Fl.sinPoly
    push_cast
    rfl
  rw [hp]
  have habs : Complex.abs ((t : ℝ) * Complex.I) ^ 28 ≤ 1 := pow_le_one₀ (by positivity) hx
  have hc : ((Nat.succ 28 : ℕ) : ℝ) * (((Nat.factorial 28 : ℕ) : ℝ) * ((28 : ℕ) : ℝ))⁻¹
      ≤ 1 / 2 ^ 97 := by
    norm_num [Nat.factorial]
  have hc0 : 0 ≤ ((Nat.succ 28 : ℕ) : ℝ) * (((Nat.factorial 28 : ℕ) : ℝ) * ((28 : ℕ) : ℝ))⁻¹ := by
    positivity
  calc |Real.sin (t : ℝ)
        - ∑ k ∈ Finset.range 14, (-1) ^ k * (t : ℝ) ^ (2 * k + 1) / ((2 * k + 1).factorial : ℝ)|
      ≤ _ := him
    _ ≤ _ := hb
    _ ≤ 1 * (((Nat.succ 28 : ℕ) : ℝ) * (((Nat.factorial 28 : ℕ) : ℝ) * ((28 : ℕ) : ℝ))⁻¹) :=
        mul_le_mul_of_nonneg_right habs hc0
    _ ≤ 1 / 2 ^ 97 := by
        rw [one_mul]
        exact hc

/-- The Taylor polynomial `Fl.cosPoly` is within `2^-97` of the cosine on `[-1, 1]`. -/
theorem Fl.cosPoly_accurate (t : ℚ) (ht : |t| ≤ 1) :
    |Real.cos (t : ℝ) - ((Fl.cosPoly t : ℚ) : ℝ)| ≤ 1 / 2 ^ 97 := by
  have hx : Complex.abs ((t : ℝ) * Complex.I) ≤ 1 := by
    rw [map_mul, Complex.abs_I, mul_one, Complex.abs_ofReal]
    exact_mod_cast ht
  have hb := Complex.exp_bound hx (n := 28) (by norm_num)
  have hs := exp_series_mul_I (t : ℝ) 14
  rw [show 2 * 14 = 28 from rfl] at hs
  rw [hs] at hb
  have hre := Complex.abs_re_le_abs
    (Complex.exp ((t : ℝ) * Complex.I)
      - (((∑ k ∈ Finset.range 14, (-1) ^ k * (t : ℝ) ^ (2 * k) / ((2 * k).factorial : ℝ) : ℝ) : ℂ)
        + ((∑ k ∈ Finset.range 14,
            (-1) ^ k * (t : ℝ) ^ (2 * k + 1) / ((2 * k + 1).factorial : ℝ) : ℝ) : ℂ)
          * Complex.I))
  rw [Complex.sub_re, Complex.exp_ofReal_mul_I_re, Complex.add_re, Complex.ofReal_re,
    Complex.re_ofReal_mul, Complex.I_re, mul_zero, add_zero] at hre
  have hp : ((Fl.cosPoly t : ℚ) : ℝ)
      = ∑ k ∈ Finset.range 14, (-1) ^ k * (t : ℝ) ^ (2 * k) / ((2 * k).factorial : ℝ) := by
    unfold Fl.cosPoly
    push_cast
    rfl
  rw [hp]
  have habs : Complex.abs ((t : ℝ) * Complex.I) ^ 28 ≤ 1 := pow_le_one₀ (by positivity) hx
  have hc : ((Nat.succ 28 : ℕ) : ℝ) * (((Nat.factorial 28 : ℕ) : ℝ) * ((28 : ℕ) : ℝ))⁻¹
      ≤ 1 / 2 ^ 97 := by
    norm_num [Nat.factorial]
  have hc0 : 0 ≤ ((Nat.succ 28 : ℕ) : ℝ) * (((Nat.factorial 28 : ℕ) : ℝ) * ((28 : ℕ) : ℝ))⁻¹ := by
    positivity
  calc |Real.cos (t : ℝ)
        - ∑ k ∈ Finset.range 14, (-1) ^ k * (t : ℝ) ^ (2 * k) / ((2 * k).factorial : ℝ)|
      ≤ _ := hre
    _ ≤ _ := hb
    _ ≤ 1 * (((Nat.succ 28 : ℕ) : ℝ) * (((Nat.factorial 28 : ℕ) : ℝ) * ((28 : ℕ) : ℝ))⁻¹) :=
        mul_le_mul_of_nonneg_right habs hc0
    _ ≤ 1 / 2 ^ 97 := by
        rw [one_mul]
        exact hc

/-- The value of the Taylor polynomial of the sine at `1/4`. -/
theorem Fl.sinPoly_quarter :
    Fl.sinPoly (1 / 4)
      = (48529878305283334529779581565043511578123231 / 196156433597560273444366426542767603712000000) := by
  simp only [Fl.sinPoly, Finset.sum_range_succ, Finset.sum_range_zero, Nat.factorial]
  norm_num

/-- The sine of `1/4` in double arithmetic. -/
theorem Fl.sin_quarter : Fl.sin (1 / 4) = (8913667029669239 / 36028797018963968) := by
  have h := round53_eval
    (48529878305283334529779581565043511578123231 / 196156433597560273444366426542767603712000000)
    (-55) (8913667029669239) (by norm_num) (by norm_num)
    (roundHalfEven_near _ _ (by rw [abs_lt]; constructor <;> norm_num))
  rw [Fl.sin, Fl.sinPoly_quarter, h]
  norm_num

/-- The value of `Fl.sin` at `1/4` is the double nearest to the sine of `1/4`: it is within half a
unit in the last place, `2^-56`, of it. -/
theorem Fl.sin_quarter_nearest :
    |Real.sin (1 / 4) - (((8913667029669239 / 36028797018963968) : ℚ) : ℝ)| < 1 / 2 ^ 56 := by
  have ha := Fl.sinPoly_accurate (1 / 4) (by norm_num [abs_of_nonneg])
  rw [Fl.sinPoly_quarter] at ha
  have hq :
      |((48529878305283334529779581565043511578123231 / 196156433597560273444366426542767603712000000) : ℚ)
          - (8913667029669239 / 36028797018963968)| + 1 / 2 ^ 97 < 1 / 2 ^ 56 := by
    norm_num [abs_of_nonneg, abs_of_nonpos]
  have hr := (Rat.cast_lt (K := ℝ)).mpr hq
  rw [Rat.cast_add, Rat.cast_abs, Rat.cast_sub] at hr
  have h97 : (((1 / 2 ^ 97 : ℚ)) : ℝ) = 1 / 2 ^ 97 := by norm_num
  have hhalf : (((1 / 2 ^ 56 : ℚ)) : ℝ) = 1 / 2 ^ 56 := by norm_num
  rw [h97, hhalf] at hr
  have ht : (((1 / 4) : ℚ) : ℝ) = 1 / 4 := by norm_num
  rw [ht] at ha
  have tri := abs_sub_le (Real.sin (1 / 4))
    ((((48529878305283334529779581565043511578123231 / 196156433597560273444366426542767603712000000) : ℚ)) : ℝ)
    (((8913667029669239 / 36028797018963968) : ℚ) : ℝ)
  linarith

/-- The value of the Taylor polynomial of the cosine at `1/4`. -/
theorem Fl.cosPoly_quarter :
    Fl.cosPoly (1 / 4)
      = (251400006760761125196977479217910897036457 / 259466182007354859053394744104189952000000) := by
  simp only [Fl.cosPoly, Finset.sum_range_succ, Finset.sum_range_zero, Nat.factorial]
  norm_num

/-- The cosine of `1/4` in double arithmetic. -/
theorem Fl.cos_quarter : Fl.cos (1 / 4) = (8727187242741409 / 9007199254740992) := by
  have h := round53_eval
    (251400006760761125196977479217910897036457 / 259466182007354859053394744104189952000000)
    (-53) (8727187242741409) (by norm_num) (by norm_num)
    (roundHalfEven_near _ _ (by rw [abs_lt]; constructor <;> norm_num))
  rw [Fl.cos, Fl.cosPoly_quarter, h]
  norm_num

/-- The value of `Fl.cos` at `1/4` is the double nearest to the cosine of `1/4`: it is within half a
unit in the last place, `2^-54`, of it. -/
theorem Fl.cos_quarter_nearest :
    |Real.cos (1 / 4) - (((8727187242741409 / 9007199254740992) : ℚ) : ℝ)| < 1 / 2 ^ 54 := by
  have ha := Fl.cosPoly_accurate (1 / 4) (by norm_num [abs_of_nonneg])
  rw [Fl.cosPoly_quarter] at ha
  have hq :
      |((251400006760761125196977479217910897036457 / 259466182007354859053394744104189952000000) : ℚ)
          - (8727187242741409 / 9007199254740992)| + 1 / 2 ^ 97 < 1 / 2 ^ 54 := by
    norm_num [abs_of_nonneg, abs_of_nonpos]
  have hr := (Rat.cast_lt (K := ℝ)).mpr hq
  rw [Rat.cast_add, Rat.cast_abs, Rat.cast_sub] at hr
  have h97 : (((1 / 2 ^ 97 : ℚ)) : ℝ) = 1 / 2 ^ 97 := by norm_num
  have hhalf : (((1 / 2 ^ 54 : ℚ)) : ℝ) = 1 / 2 ^ 54 := by norm_num
  rw [h97, hhalf] at hr
  have ht : (((1 / 4) : ℚ) : ℝ) = 1 / 4 := by norm_num
  rw [ht] at ha
  have tri := abs_sub_le (Real.cos (1 / 4))
    ((((251400006760761125196977479217910897036457 / 259466182007354859053394744104189952000000) : ℚ)) : ℝ)
    (((8727187242741409 / 9007199254740992) : ℚ) : ℝ)
  linarith

/-- The ground speed of `(1, 0, 0)` in double arithmetic. -/
theorem Fl.Sample.gs_100 : Fl.Velocity.gs Fl.math ⟨⟨1, 0, 0⟩⟩ = some 1 := by
  have hxx : Fl.mul 1 1 = some 1 := by
    simp only [Fl.mul]
    have h := Fl.rnd_dyadic (1) (0) (by norm_num) (by norm_num) (by norm_num)
    norm_num at h ⊢
    exact h
  have hyy : Fl.mul 0 0 = some 0 := by
    simp only [Fl.mul]
    norm_num [Fl.rnd_zero]
  have hs : Fl.add 1 0 = some 1 := by
    simp only [Fl.add]
    have h := Fl.rnd_dyadic (1) (0) (by norm_num) (by norm_num) (by norm_num)
    norm_num at h ⊢
    exact h
  have hsq : Fl.sqrt 1 = 1 := by
    have h := Fl.sqrt_eval 1 (0) (55)
        (1298074214633706907132624082305024) (36028797018963968)
        (by norm_num) (by norm_num) (by norm_num) (by norm_num)
        (by norm_num) (by norm_num) (by norm_num)
    rw [h]
    have h2 := round53_dyadic (1) (0) (by norm_num)
    norm_num at h2 ⊢
    exact h2
  have h := Fl.gs_of Fl.math ⟨⟨1, 0, 0⟩⟩ 1 0 1 hxx hyy hs
  have hm : Fl.math.sqrt_safe 1 = 1 := by
    simp only [Fl.math, Fl.sqrt_safe]
    rw [max_eq_left (by norm_num)]
    exact hsq
  rw [hm] at h
  exact h

/-- Method `mkTrk(1/4)` on `(1, 0, 0)` in double arithmetic. -/
theorem Fl.Sample.mkTrk_100 :
    Fl.Velocity.mkTrk Fl.math ⟨⟨1, 0, 0⟩⟩ (1 / 4)
      = some
        ⟨⟨(8913667029669239 / 36028797018963968), (8727187242741409 / 9007199254740992), 0⟩⟩ := by
  have ha :
      Fl.mul 1 (8913667029669239 / 36028797018963968)
      = some (8913667029669239 / 36028797018963968) := by
    simp only [Fl.mul]
    have h := Fl.rnd_dyadic (8913667029669239) (-55) (by norm_num) (by norm_num) (by norm_num)
    norm_num at h ⊢
    exact h
  have hb :
      Fl.mul 1 (8727187242741409 / 9007199254740992)
      = some (8727187242741409 / 9007199254740992) := by
    simp only [Fl.mul]
    have h := Fl.rnd_dyadic (8727187242741409) (-53) (by norm_num) (by norm_num) (by norm_num)
    norm_num at h ⊢
    exact h
  have hs : Fl.math.sin (1 / 4) = (8913667029669239 / 36028797018963968) := Fl.sin_quarter
  have hc : Fl.math.cos (1 / 4) = (8727187242741409 / 9007199254740992) := Fl.cos_quarter
  exact Fl.mkTrk_of Fl.math ⟨⟨1, 0, 0⟩⟩ (1 / 4) 1 _ _ Fl.Sample.gs_100 (by rw [hs]; exact ha)
    (by rw [hc]; exact hb)

/-- The ground speed of the result of `mkTrk(1/4)` on `(1, 0, 0)` in double arithmetic. -/
theorem Fl.Sample.gs_mkTrk_100 :
    Fl.Velocity.gs Fl.math
        ⟨⟨(8913667029669239 / 36028797018963968), (8727187242741409 / 9007199254740992), 0⟩⟩
      = some (9007199254740991 / 9007199254740992) := by
  have hxx :
      Fl.mul (8913667029669239 / 36028797018963968) (8913667029669239 / 36028797018963968)
      = some (2205276514616673 / 36028797018963968) := by
    simp only [Fl.mul]
    have h := Fl.rnd_eval
        ((8913667029669239 / 36028797018963968) * (8913667029669239 / 36028797018963968) : ℚ)
        (-57) (8821106058466692) (by norm_num) (by norm_num)
        (roundHalfEven_near _ _ (by rw [abs_lt]; constructor <;> norm_num))
        (by norm_num) (by norm_num)
    rw [h]
    norm_num
  have hyy :
      Fl.mul (8727187242741409 / 9007199254740992) (8727187242741409 / 9007199254740992)
      = some (8455880126086823 / 9007199254740992) := by
    simp only [Fl.mul]
    have h := Fl.rnd_eval
        ((8727187242741409 / 9007199254740992) * (8727187242741409 / 9007199254740992) : ℚ)
        (-53) (8455880126086823) (by norm_num) (by norm_num)
        (roundHalfEven_near _ _ (by rw [abs_lt]; constructor <;> norm_num))
        (by norm_num) (by norm_num)
    rw [h]
    norm_num
  have hs :
      Fl.add (2205276514616673 / 36028797018963968) (8455880126086823 / 9007199254740992)
      = some (9007199254740991 / 9007199254740992) := by
    simp only [Fl.add]
    have h := Fl.rnd_eval
        ((2205276514616673 / 36028797018963968) + (8455880126086823 / 9007199254740992) : ℚ)
        (-53) (9007199254740991) (by norm_num) (by norm_num)
        (roundHalfEven_near _ _ (by rw [abs_lt]; constructor <;> norm_num))
        (by norm_num) (by norm_num)
    rw [h]
    norm_num
  have hsq :
      Fl.sqrt (9007199254740991 / 9007199254740992) = (9007199254740991 / 9007199254740992) := by
    have h := Fl.sqrt_eval (9007199254740991 / 9007199254740992) (-1) (56)
        (5192296858534827052069744025796608) (72057594037927931)
        (by norm_num) (by norm_num) (by norm_num) (by norm_num)
        (by norm_num) (by norm_num) (by norm_num)
    rw [h]
    have h2 := round53_eval
        (144115188075855863 / 144115188075855872) (-53) (9007199254740991)
        (by norm_num) (by norm_num)
        (roundHalfEven_near _ _ (by rw [abs_lt]; constructor <;> norm_num))
    norm_num at h2 ⊢
    exact h2
  have h := Fl.gs_of Fl.math
    ⟨⟨(8913667029669239 / 36028797018963968), (8727187242741409 / 9007199254740992), 0⟩⟩
    _ _ _ hxx hyy hs
  have hm : Fl.math.sqrt_safe (9007199254740991 / 9007199254740992) = (9007199254740991 / 9007199254740992) := by
    simp only [Fl.math, Fl.sqrt_safe]
    rw [max_eq_left (by norm_num)]
    exact hsq
  rw [hm] at h
  exact h

/-- C17, amended. In double arithmetic, a result of `mkTrk` in the range of the normal doubles
has the vertical speed of `v`, and its horizontal components are the doubles nearest to
`gs·sin(trk)` and `gs·cos(trk)`, with `gs` the computed ground speed of `v`: each differs from
the exact product by at most the fraction `2^-53` of it.  The squared ground speed `L` of the
result satisfies `(1 - 2^-53)²·gs²·(sin² + cos²) ≤ L ≤ (1 + 2^-53)²·gs²·(sin² + cos²)`, where
`sin² + cos²` is formed from the doubles that `sin` and `cos` return and is 1 only up to their
rounding: the ground speed is kept only up to these roundings. -/
theorem C17_mkTrk_rounded (M : Fl.MathFns) (v : Velocity) (trk g : ℚ) (r : Velocity)
    (hg : Fl.Velocity.gs M v = some g) (hr : Fl.Velocity.mkTrk M v trk = some r) :
    r.vs = v.vs
      ∧ r.x = round53 (g * M.sin trk) ∧ r.y = round53 (g * M.cos trk)
      ∧ |r.x - g * M.sin trk| ≤ |g * M.sin trk| * Fl.u
      ∧ |r.y - g * M.cos trk| ≤ |g * M.cos trk| * Fl.u
      ∧ (1 - Fl.u) ^ 2 * (g ^ 2 * (M.sin trk ^ 2 + M.cos trk ^ 2)) ≤ r.x ^ 2 + r.y ^ 2
      ∧ r.x ^ 2 + r.y ^ 2 ≤ (1 + Fl.u) ^ 2 * (g ^ 2 * (M.sin trk ^ 2 + M.cos trk ^ 2)) := by
  simp only [Fl.Velocity.mkTrk, hg, Fl.Velocity.mkTrkGsVs, Fl.Velocity.trkgs2vx,
    Fl.Velocity.trkgs2vy] at hr
  split at hr
  · rename_i a b ha hb
    have hv := Option.some.inj hr
    have hx : r.x = a := by rw [← hv]
    have hy : r.y = b := by rw [← hv]
    have hz : r.vs = v.vs := by rw [← hv]; rfl
    have sa := Fl.rnd_sq_bounds _ _ ha
    have sb := Fl.rnd_sq_bounds _ _ hb
    rw [hx, hy]
    refine ⟨hz, Fl.rnd_eq_some _ _ ha, Fl.rnd_eq_some _ _ hb, Fl.rnd_err _ _ ha,
      Fl.rnd_err _ _ hb, ?_, ?_⟩
    · have := sa.1
      have := sb.1
      nlinarith
    · have := sa.2
      have := sb.2
      nlinarith
  · exact absurd hr (by simp)

/-- C17, as stated, fails in double arithmetic.  The velocity `(1, 0, 0)` has ground speed 1;
`mkTrk(1/4)` returns the doubles nearest to the sine and the cosine of `1/4`, and the ground
speed of this result, computed by `gs()`, is `1 - 2^-53` and not 1. -/
theorem C17_counterexample :
    Fl.Velocity.gs Fl.math ⟨⟨1, 0, 0⟩⟩ = some 1
      ∧ Fl.Velocity.mkTrk Fl.math ⟨⟨1, 0, 0⟩⟩ (1 / 4)
        = some ⟨⟨8913667029669239 / 36028797018963968,
            8727187242741409 / 9007199254740992, 0⟩⟩
      ∧ |Real.sin (1 / 4) - ((8913667029669239 / 36028797018963968 : ℚ) : ℝ)| < 1 / 2 ^ 56
      ∧ |Real.cos (1 / 4) - ((8727187242741409 / 9007199254740992 : ℚ) : ℝ)| < 1 / 2 ^ 54
      ∧ Fl.Velocity.gs Fl.math ⟨⟨8913667029669239 / 36028797018963968,
            8727187242741409 / 9007199254740992, 0⟩⟩ = some (1 - 1 / 2 ^ 53)
      ∧ (1 - 1 / 2 ^ 53 : ℚ) ≠ 1 := by
  refine ⟨Fl.Sample.gs_100, Fl.Sample.mkTrk_100, Fl.sin_quarter_nearest,
    Fl.cos_quarter_nearest, ?_, by norm_num⟩
  have h := Fl.Sample.gs_mkTrk_100
  norm_num at h ⊢
  exact h

/-- Witness for the amended C17: `mkTrk(1/4)` on `(1, 0, 0)` with the sine and cosine of
`Fl.math`. -/
theorem C17_mkTrk_rounded_witness :
    Velocity.vs ⟨⟨8913667029669239 / 36028797018963968,
        8727187242741409 / 9007199254740992, 0⟩⟩ = Velocity.vs ⟨⟨1, 0, 0⟩⟩
      ∧ (1 - Fl.u) ^ 2 * ((1 : ℚ) ^ 2 * (Fl.math.sin (1 / 4) ^ 2 + Fl.math.cos (1 / 4) ^ 2))
        ≤ (8913667029669239 / 36028797018963968 : ℚ) ^ 2
          + (8727187242741409 / 9007199254740992) ^ 2
      ∧ (8913667029669239 / 36028797018963968 : ℚ) ^ 2
          + (8727187242741409 / 9007199254740992) ^ 2
        ≤ (1 + Fl.u) ^ 2 * ((1 : ℚ) ^ 2 * (Fl.math.sin (1 / 4) ^ 2 + Fl.math.cos (1 / 4) ^ 2)) := by
  have h := C17_mkTrk_rounded Fl.math ⟨⟨1, 0, 0⟩⟩ (1 / 4) 1 _ Fl.Sample.gs_100
    Fl.Sample.mkTrk_100
  exact ⟨h.1, h.2.2.2.2.2.1, h.2.2.2.2.2.2⟩

end larcfm
